import Mathlib

/-!
Shallow embedding of `src/arena.py` (Media-Arena tournament engine).

Conventions of the embedding:
* Media items (the Python file paths used as dictionary keys) are `String`s.
* The Python `dict` of players is an association list `List (Item × rec)`
  whose keys are distinct (the Python dict guarantees key uniqueness);
  dictionary update is a key-guarded `List.map`.
* Python floats are modelled by real numbers (for the ELO formula, which
  uses a transcendental power) or by rationals (for the score field, which
  only ever holds sums of 0.0 / 0.5 / 1.0 increments).
* Python `round` (banker's rounding) is modelled by Lean's `round`
  (half-up); on the real-number model the two agree everywhere the
  argument is not an exact half-integer, and exact halves do not occur at
  integer rating inputs.
* `random.shuffle` is modelled by an explicit `shuffle : List Item → List Item`
  parameter; theorems that need it assume it permutes its input.
-/

abbrev Item := String

/-- ELO rating update, from `calculate_elo` (arena.py lines 42-48). -/
noncomputable def calculate_elo (player_a_rating player_b_rating result : ℝ) : ℤ × ℤ :=
  let k_factor : ℝ := 32
  let expected_a : ℝ := 1 / (1 + (10 : ℝ) ^ ((player_b_rating - player_a_rating) / 400))
  let expected_b : ℝ := 1 - expected_a
  let new_rating_a : ℝ := player_a_rating + k_factor * (result - expected_a)
  let new_rating_b : ℝ := player_b_rating + k_factor * ((1 - result) - expected_b)
  (round new_rating_a, round new_rating_b)

/-- The rating-update contract exactly as the specification words it
(§4.1): `expectedA = 1/(1+10^((ratingB-ratingA)/400))`, `expectedB = 1 - expectedA`,
`newA = ratingA + K*(result-expectedA)`, `newB = ratingB + K*((1-result)-expectedB)`,
K = 32, both outputs rounded to the nearest integer. -/
noncomputable def UpdateRatings_spec (ratingA ratingB result : ℝ) : ℤ × ℤ :=
  let K : ℝ := 32
  let expectedA : ℝ := 1 / (1 + (10 : ℝ) ^ ((ratingB - ratingA) / 400))
  let expectedB : ℝ := 1 - expectedA
  (round (ratingA + K * (result - expectedA)),
   round (ratingB + K * ((1 - result) - expectedB)))

/-- `has_played` (arena.py lines 79-81): membership of the pair, in either
order, in the match history. -/
def has_played (p1 p2 : Item) (hist : List (Item × Item)) : Bool :=
  decide ((p1, p2) ∈ hist) || decide ((p2, p1) ∈ hist)

/-- The inner pairing loop of `create_swiss_pairings` (arena.py lines 70-75):
walk an (even-length) bracket two at a time; a pair that has not played is
emitted as a match, a pair that has played is deferred — both items are
appended to the unpaired list.  Returns (matches, deferred items), each in
encounter order. -/
def pair_walk (hist : List (Item × Item)) : List Item → List (Item × Item) × List Item
  | p1 :: p2 :: rest =>
    let r := pair_walk hist rest
    if has_played p1 p2 hist then (r.1, p1 :: p2 :: r.2)
    else ((p1, p2) :: r.1, r.2)
  | _ => ([], [])

/-- The outer loop of `create_swiss_pairings` (arena.py lines 61-75) over the
score brackets in descending-score order: prepend the carry-forward list, pop
the last element when the bracket is odd (it joins the next carry-forward
list, ahead of the pairs deferred by `pair_walk`), pair the rest. -/
def swiss_rounds (hist : List (Item × Item)) : List Item → List (List Item) → List (Item × Item)
  | _, [] => []
  | carry, b :: bs =>
    let bracket := carry ++ b
    let popped := if bracket.length % 2 ≠ 0 then bracket.getLast?.toList else []
    let bracket2 := if bracket.length % 2 ≠ 0 then bracket.dropLast else bracket
    let r := pair_walk hist bracket2
    r.1 ++ swiss_rounds hist (popped ++ r.2) bs

/-- Descending insertion of a score into a sorted score list. -/
def insert_desc (x : ℚ) : List ℚ → List ℚ
  | [] => [x]
  | y :: ys => if y ≤ x then x :: y :: ys else y :: insert_desc x ys

/-- `sorted(keys, reverse=True)` (arena.py line 58): the score keys in
descending order. -/
def sort_desc (l : List ℚ) : List ℚ := l.foldr insert_desc []

/-- The distinct score keys of the players dict, in insertion order
(`players_by_score` keys, arena.py lines 53-55). -/
def score_keys (players : List (Item × ℚ)) : List ℚ := (players.map Prod.snd).dedup

/-- The bracket of one score key: the players with that score, in dict
iteration order (arena.py lines 53-55). -/
def bracket_for (players : List (Item × ℚ)) (s : ℚ) : List Item :=
  (players.filter (fun e => e.2 = s)).map Prod.fst

/-- The score brackets in descending-score processing order, each one
shuffled (arena.py lines 53-63). -/
def score_brackets (shuffle : List Item → List Item) (players : List (Item × ℚ)) :
    List (List Item) :=
  (sort_desc (score_keys players)).map (fun s => shuffle (bracket_for players s))

/-- Rating-mode tournament state: the dict built at arena.py lines 104-110.
The `players` association list carries, per item, its current score (the
only player field `create_swiss_pairings` reads); the ELO value and match
counter are tracked by the vote handler and do not influence pairing or
round advancement, so the embedding keeps the score column. -/
structure SwissState where
  players : List (Item × ℚ)
  match_history : List (Item × Item)
  total_rounds : ℕ
  current_round : ℕ
  matchups_this_round : List (Item × Item)
  current_match_index : ℕ

/-- `create_swiss_pairings` (arena.py lines 51-77), with the random shuffle
made an explicit parameter. -/
def create_swiss_pairings (shuffle : List Item → List Item) (state : SwissState) :
    List (Item × Item) :=
  swiss_rounds state.match_history [] (score_brackets shuffle state.players)

/-- The render-ready view of the rating branch of `display_match`
(arena.py lines 126-144): the final-ranking banner (line 128), the
"no more possible pairings" banner (line 136), or the match at the cursor. -/
inductive RView
  | finished
  | noMorePairings
  | matchView (p1 p2 : Item)
  | blank
deriving DecidableEq

/-- The rating-mode branch of `display_match` (arena.py lines 126-144):
state mutation (round advancement, pairing regeneration, forced
termination) together with the view it renders.  The tail-recursive call at
line 132 happens only when the incremented round exceeds `total_rounds`, so
it is inlined as the branch it immediately takes (line 128). -/
def rating_display (shuffle : List Item → List Item) (st : SwissState) :
    SwissState × RView :=
  if st.total_rounds < st.current_round then (st, RView.finished)
  else if st.matchups_this_round.length ≤ st.current_match_index then
    let st1 := { st with current_round := st.current_round + 1 }
    if st1.total_rounds < st1.current_round then (st1, RView.finished)
    else
      let ps := create_swiss_pairings shuffle st1
      let st2 := { st1 with matchups_this_round := ps, current_match_index := 0 }
      if ps.isEmpty then
        ({ st2 with current_round := st2.total_rounds + 1 }, RView.noMorePairings)
      else
        match ps.get? 0 with
        | some m => (st2, RView.matchView m.1 m.2)
        | none => (st2, RView.blank)
  else
    match st.matchups_this_round.get? st.current_match_index with
    | some m => (st, RView.matchView m.1 m.2)
    | none => (st, RView.blank)

/-! ## Elimination mode -/

/-- Player status strings of arena.py (`"active"`, `"winner"`, `"eliminated"`). -/
inductive Status
  | active
  | winner
  | eliminated
deriving DecidableEq

/-- One elimination-mode player record: `{"status": ...}` plus the
`eliminated_in_round` key added when a player loses (arena.py lines 102, 200). -/
structure PRec where
  status : Status
  eliminated_in_round : Option ℕ
deriving DecidableEq

/-- Elimination-mode tournament state (the dict of arena.py line 102). -/
structure ElimState where
  players : List (Item × PRec)
  matchups : List (Item × Item)
  current_match_index : ℕ
  round : ℕ
deriving DecidableEq

/-- `state["players"][p]["status"] = s`: key-guarded update of the players
dict. -/
def set_status (p : Item) (s : Status) (ps : List (Item × PRec)) : List (Item × PRec) :=
  ps.map (fun e => if e.1 = p then (e.1, { e.2 with status := s }) else e)

/-- The loser update of arena.py line 200: status becomes `eliminated` and
`eliminated_in_round` is set to the current round. -/
def set_eliminated (p : Item) (r : ℕ) (ps : List (Item × PRec)) : List (Item × PRec) :=
  ps.map (fun e =>
    if e.1 = p then (e.1, { status := Status.eliminated, eliminated_in_round := some r }) else e)

/-- The champion update of arena.py line 156: only `eliminated_in_round`
changes. -/
def set_elim_round (p : Item) (r : ℕ) (ps : List (Item × PRec)) : List (Item × PRec) :=
  ps.map (fun e => if e.1 = p then (e.1, { e.2 with eliminated_in_round := some r }) else e)

/-- `for p in winners: state["players"][p]["status"] = "active"`
(arena.py line 168). -/
def set_all_active (w : List Item) (ps : List (Item × PRec)) : List (Item × PRec) :=
  w.foldl (fun acc p => set_status p Status.active acc) ps

/-- Python slice `l[::2]`. -/
def slice2 {α : Type} : List α → List α
  | [] => []
  | [x] => [x]
  | x :: _ :: rest => x :: slice2 rest

/-- `list(zip(l[::2], l[1::2]))` (arena.py lines 102, 169): consecutive
pairing; with an odd list the final element is dropped by `zip`. -/
def zip_consec (l : List Item) : List (Item × Item) :=
  (slice2 l).zip (slice2 l.tail)

/-- The elimination branch of `start_tournament` (arena.py lines 100-103),
with the `random.shuffle(files)` made an explicit parameter. -/
def start_elim (shuffle : List Item → List Item) (files0 : List Item) : ElimState :=
  let files := shuffle files0
  let st : ElimState :=
    { players := files.map (fun f => (f, { status := Status.active, eliminated_in_round := none })),
      matchups := zip_consec files,
      current_match_index := 0,
      round := 1 }
  if files.length % 2 ≠ 0 then
    match files.getLast? with
    | some f => { st with players := set_status f Status.winner st.players }
    | none => st
  else st

/-- `[p for p, d in state["players"].items() if d["status"] == "winner"]`
(arena.py line 151). -/
def winners_of (st : ElimState) : List Item :=
  (st.players.filter (fun e => e.2.status = Status.winner)).map Prod.fst

/-- Round advancement (arena.py lines 167-170), applied to the
already-shuffled winners list `w`: bump the round, reset the cursor, set
every winner back to `active`, re-pair consecutively, and give the last
element a bye (`status = winner`) when the count is odd. -/
def advance_round (w : List Item) (st : ElimState) : ElimState :=
  let players1 := set_all_active w st.players
  let players2 :=
    if w.length % 2 ≠ 0 then
      match w.getLast? with
      | some f => set_status f Status.winner players1
      | none => players1
    else players1
  { st with round := st.round + 1, current_match_index := 0,
            players := players2, matchups := zip_consec w }

/-- One row of the terminal ranking table (arena.py line 158): the item and
its `rank_order`, i.e. `d.get("eliminated_in_round", 0)`.  (The source
projects the item through `original_filenames` for display; the embedding
keeps the item identifier itself.) -/
def elim_rank_rows (players : List (Item × PRec)) : List (Item × ℕ) :=
  players.map (fun e => (e.1, e.2.eliminated_in_round.getD 0))

/-- Descending insertion by `rank_order`, modelling
`sort_values(by="rank_order", ascending=False)` (arena.py line 159). -/
def insert_row_desc (x : Item × ℕ) : List (Item × ℕ) → List (Item × ℕ)
  | [] => [x]
  | y :: ys => if y.2 ≤ x.2 then x :: y :: ys else y :: insert_row_desc x ys

/-- Sort the ranking rows by `rank_order`, descending (arena.py line 159). -/
def sort_rows_desc (l : List (Item × ℕ)) : List (Item × ℕ) :=
  l.foldr insert_row_desc []

/-- The terminal ranking table of arena.py lines 158-160: rows sorted by
`rank_order` descending, then assigned dense rank numbers `1..n`. -/
def final_ranking (players : List (Item × PRec)) : List (ℕ × Item) :=
  let sorted := sort_rows_desc (elim_rank_rows players)
  (((List.range sorted.length).map (· + 1)).zip (sorted.map Prod.fst))

/-- The render-ready view of the elimination branch of `display_match`
(arena.py lines 149-176). -/
inductive EView
  | champView (c : Item) (ranking : List (ℕ × Item))
  | matchView (p1 p2 : Item)
  | blank
deriving DecidableEq

/-- The elimination branch of `display_match` (arena.py lines 149-176):
when the round is exhausted, either crown the champion (winners == 1,
lines 151-165) or advance the bracket (lines 167-170); otherwise expose
the match at the cursor (lines 172-176). -/
def elim_display (shuffle : List Item → List Item) (st : ElimState) :
    ElimState × EView :=
  if st.matchups.length ≤ st.current_match_index then
    let winners := winners_of st
    if winners.length = 1 then
      match winners.get? 0 with
      | some c =>
        let players2 := set_elim_round c (st.round + 1) st.players
        (⟨players2, st.matchups, st.current_match_index, st.round⟩,
         EView.champView c (final_ranking players2))
      | none => (st, EView.blank)
    else
      let st2 := advance_round (shuffle winners) st
      match st2.matchups.get? st2.current_match_index with
      | some m => (st2, EView.matchView m.1 m.2)
      | none => (st2, EView.blank)
  else
    match st.matchups.get? st.current_match_index with
    | some m => (st, EView.matchView m.1 m.2)
    | none => (st, EView.blank)

/-- The vote outcomes of the interface (`'A'`, `'B'`, `'TIE'`,
arena.py lines 238-240). -/
inductive Outcome
  | A
  | B
  | TIE
deriving DecidableEq

/-- The elimination branch of `vote` (arena.py lines 196-201), state
mutation only: a `TIE` skips the branch entirely; otherwise the match at
the cursor is read (`none` models the `IndexError` the subscript raises
when the cursor is out of range), the winner and loser records are updated
and the cursor advances. -/
def vote_elim (outcome : Outcome) (st : ElimState) : Option ElimState :=
  if outcome = Outcome.TIE then some st
  else
    match st.matchups.get? st.current_match_index with
    | none => none
    | some m =>
      let winner := if outcome = Outcome.A then m.1 else m.2
      let loser := if outcome = Outcome.A then m.2 else m.1
      some { st with
        players := set_eliminated loser st.round (set_status winner Status.winner st.players),
        current_match_index := st.current_match_index + 1 }

/-- `vote` followed by the `display_match` it tail-calls (arena.py line 202),
elimination mode. -/
def elim_apply_vote (outcome : Outcome) (shuffle : List Item → List Item)
    (st : ElimState) : Option (ElimState × EView) :=
  (vote_elim outcome st).map (elim_display shuffle)

/-- A sequence of elimination votes (state part only), `none` as soon as one
of them hits the out-of-range subscript. -/
def fold_votes (outs : List Outcome) (st : ElimState) : Option ElimState :=
  match outs with
  | [] => some st
  | o :: rest => (vote_elim o st).bind (fold_votes rest)

/-! ## Entry-point error behaviour -/

/-- A state value as it crosses the engine boundary: either not a dict at
all (the only malformation arena.py lines 115 and 181 test for), or a dict
whose `"mode"` key may be missing. -/
inductive RawState
  | notDict
  | dict (mode : Option String)
deriving DecidableEq

/-- Result of a Python call: a value, or an uncaught `KeyError` escaping to
the caller. -/
inductive PyResult (α : Type)
  | ok (a : α)
  | keyError (k : String)
deriving DecidableEq

/-- Entry of `display_match` (arena.py lines 114-117): a non-dict state is
answered with the generic retry banner (`"發生內部錯誤，請重試。"`); any dict
state immediately evaluates `state["mode"]`, which raises `KeyError` when
the key is absent. -/
def display_match_entry (st : RawState) : PyResult (Option String) :=
  match st with
  | RawState.notDict => PyResult.ok none
  | RawState.dict none => PyResult.keyError "mode"
  | RawState.dict (some m) => PyResult.ok (some m)

/-- Entry of `vote` (arena.py lines 180-182): a non-dict state returns
unchanged with no-op updates; any dict state immediately evaluates
`state["mode"]`, which raises `KeyError` when the key is absent. -/
def vote_entry (outcome : Outcome) (st : RawState) : PyResult (Option String) :=
  match st, outcome with
  | RawState.notDict, _ => PyResult.ok none
  | RawState.dict none, _ => PyResult.keyError "mode"
  | RawState.dict (some m), _ => PyResult.ok (some m)

/-! ## Observers -/

/-- First-match association lookup in the players dict. -/
def find_rec (p : Item) : List (Item × PRec) → Option PRec
  | [] => none
  | e :: rest => if e.1 = p then some e.2 else find_rec p rest

/-- The status of player `p` in an elimination state (`none` when `p` is not
a player). -/
def status_in (p : Item) (st : ElimState) : Option Status :=
  (find_rec p st.players).map PRec.status

/-- The number of players whose status is `winner`. -/
def winners_count (st : ElimState) : ℕ :=
  (winners_of st).length

/-- All items occurring in a list of matches. -/
def participants (ms : List (Item × Item)) : List Item :=
  ms.flatMap (fun m => [m.1, m.2])

/-! # Claims -/

/-- **C2** (rating update correctness): `calculate_elo` computes exactly the
specification's `UpdateRatings` contract — `expectedA = 1/(1+10^((ratingB-ratingA)/400))`,
`expectedB = 1 - expectedA`, `newA = round(ratingA + 32*(result - expectedA))`,
`newB = round(ratingB + 32*((1-result) - expectedB))` — for every pair of
ratings and every result; as a Lean function it is total (pure, never
fails). -/
theorem calculate_elo_meets_contract (ratingA ratingB result : ℝ) :
    calculate_elo ratingA ratingB result = UpdateRatings_spec ratingA ratingB result := rfl

/-- **C4** (tie is a no-op in elimination mode): on any elimination-mode
state with a pending match, a `TIE` vote returns the state unchanged —
players, matchups, cursor and round all included. -/
theorem tie_vote_noop (shuffle : List Item → List Item) (st : ElimState)
    (h : st.current_match_index < st.matchups.length) :
    (elim_apply_vote Outcome.TIE shuffle st).map Prod.fst = some st := by
  have hvote : vote_elim Outcome.TIE st = some st := rfl
  have hnotle : ¬ st.matchups.length ≤ st.current_match_index := not_le.mpr h
  simp [elim_apply_vote, elim_display, hvote, hnotle]
  split <;> rfl

/-- Witness for `tie_vote_noop` at the concrete three-item start state. -/
theorem tie_vote_noop_witness :
    (start_elim id ["a", "b", "c"]).current_match_index <
        (start_elim id ["a", "b", "c"]).matchups.length ∧
      (elim_apply_vote Outcome.TIE id (start_elim id ["a", "b", "c"])).map Prod.fst =
        some (start_elim id ["a", "b", "c"]) :=
  ⟨by decide, tie_vote_noop id (start_elim id ["a", "b", "c"]) (by decide)⟩

/-- **C6** (forced termination on exhausted pairings): in rating mode, when
the view routine advances to a new round (the old round's cursor is at the
end and the incremented round is still within `total_rounds`) and the
regenerated pairing list is empty, the state's `current_round` is set to
`total_rounds + 1` (hence the state is Completed: `current_round >
total_rounds`) and the view is the distinct no-more-possible-pairings
banner. -/
theorem exhausted_pairings_terminate (shuffle : List Item → List Item) (st : SwissState)
    (h1 : st.current_round ≤ st.total_rounds)
    (h2 : st.matchups_this_round.length ≤ st.current_match_index)
    (h3 : st.current_round + 1 ≤ st.total_rounds)
    (h4 : create_swiss_pairings shuffle { st with current_round := st.current_round + 1 } = []) :
    (rating_display shuffle st).1.current_round = st.total_rounds + 1 ∧
      st.total_rounds < (rating_display shuffle st).1.current_round ∧
      (rating_display shuffle st).2 = RView.noMorePairings := by
  have hn1 : ¬ st.total_rounds < st.current_round := not_lt.mpr h1
  have hn3 : ¬ st.total_rounds < st.current_round + 1 := not_lt.mpr h3
  simp only [rating_display, if_neg hn1, if_pos h2, hn3, if_neg hn3, h4, List.isEmpty_nil,
    if_pos, if_false, ite_false]
  exact ⟨trivial, by omega, trivial⟩

/-- Witness for `exhausted_pairings_terminate`: two items that have already
played each other, round 1 of 3 exhausted. -/
theorem exhausted_pairings_terminate_witness :
    (1 : ℕ) ≤ 3 ∧
      (rating_display id ⟨[("a", 0), ("b", 0)], [("a", "b")], 3, 1, [("a", "b")], 1⟩).1.current_round
          = 4 ∧
        (rating_display id ⟨[("a", 0), ("b", 0)], [("a", "b")], 3, 1, [("a", "b")], 1⟩).2 =
          RView.noMorePairings := by
  refine ⟨by decide, ?_⟩
  have h := exhausted_pairings_terminate id
    ⟨[("a", 0), ("b", 0)], [("a", "b")], 3, 1, [("a", "b")], 1⟩
    (by decide) (by decide) (by decide) (by decide)
  exact ⟨h.1, h.2.2⟩

/-- **C5**, counterexample: a dict state whose `"mode"` key is missing is
*not* converted to a displayable result — both `vote` and `display_match`
evaluate `state["mode"]` immediately after the `isinstance` check, and the
`KeyError` escapes across the boundary. -/
theorem malformed_dict_raises :
    vote_entry Outcome.A (RawState.dict none) = PyResult.keyError "mode" ∧
      display_match_entry (RawState.dict none) = PyResult.keyError "mode" :=
  ⟨rfl, rfl⟩

/-- **C5**, amended: only *non-dict* foreign state objects are handled
locally — `vote` returns with no-op updates and `display_match` renders the
generic retry banner — while a dict state missing required fields (here the
`"mode"` key) raises a `KeyError` that does escape across the boundary. -/
theorem entry_error_behaviour (outcome : Outcome) :
    vote_entry outcome RawState.notDict = PyResult.ok none ∧
      display_match_entry RawState.notDict = PyResult.ok none ∧
      vote_entry outcome (RawState.dict none) = PyResult.keyError "mode" ∧
      display_match_entry (RawState.dict none) = PyResult.keyError "mode" := by
  cases outcome <;> exact ⟨rfl, rfl, rfl, rfl⟩

/-- **C3**, counterexample: player statuses do *not* transition only
`active → {winner, eliminated}`.  With three items `a, b, c` (identity
shuffle), `c` gets the first-round bye and is `winner`; after the single
round-1 match is decided, round advancement resets `c` (a winner) back to
`active` — a reverse transition. -/
theorem winner_status_reverses :
    status_in "c" (start_elim id ["a", "b", "c"]) = some Status.winner ∧
      (elim_apply_vote Outcome.A id (start_elim id ["a", "b", "c"])).map
          (fun r => status_in "c" r.1) =
        some (some Status.active) := by
  decide

/-! ## Swiss pairing lemmas -/

open List

theorem participants_nil : participants [] = [] := rfl

theorem participants_cons (m : Item × Item) (ms : List (Item × Item)) :
    participants (m :: ms) = m.1 :: m.2 :: participants ms := rfl

theorem participants_append (ms ms' : List (Item × Item)) :
    participants (ms ++ ms') = participants ms ++ participants ms' := by
  simp [participants]

/-- Every match emitted by the inner pairing walk passes the
`has_played` guard. -/
theorem pair_walk_no_rematch (hist : List (Item × Item)) :
    ∀ l m, m ∈ (pair_walk hist l).1 → has_played m.1 m.2 hist = false
  | [], m, hm => by simp [pair_walk] at hm
  | [_], m, hm => by simp [pair_walk] at hm
  | p1 :: p2 :: rest, m, hm => by
    by_cases hp : has_played p1 p2 hist
    · rw [show pair_walk hist (p1 :: p2 :: rest) =
          ((pair_walk hist rest).1, p1 :: p2 :: (pair_walk hist rest).2) by
        simp [pair_walk, hp]] at hm
      exact pair_walk_no_rematch hist rest m hm
    · rw [show pair_walk hist (p1 :: p2 :: rest) =
          ((p1, p2) :: (pair_walk hist rest).1, (pair_walk hist rest).2) by
        simp [pair_walk, hp]] at hm
      rcases List.mem_cons.mp hm with h | h
      · subst h; exact eq_false_of_ne_true (by simpa using hp)
      · exact pair_walk_no_rematch hist rest m h

/-- Every match emitted by the bracket loop passes the `has_played` guard. -/
theorem swiss_rounds_no_rematch (hist : List (Item × Item)) :
    ∀ bs carry m, m ∈ swiss_rounds hist carry bs → has_played m.1 m.2 hist = false
  | [], _, m, hm => by simp [swiss_rounds] at hm
  | b :: bs, carry, m, hm => by
    rw [swiss_rounds] at hm
    rcases List.mem_append.mp hm with h | h
    · exact pair_walk_no_rematch hist _ m h
    · exact swiss_rounds_no_rematch hist bs _ m h

/-- The items of the matches the inner walk emits, together with the items
it defers, permute the (even-length) bracket it walked. -/
theorem pair_walk_perm (hist : List (Item × Item)) :
    ∀ l, l.length % 2 = 0 →
      (participants (pair_walk hist l).1 ++ (pair_walk hist l).2).Perm l
  | [], _ => by simp [pair_walk, participants]
  | [_], h => by simp at h
  | p1 :: p2 :: rest, h => by
    have hrest : rest.length % 2 = 0 := by
      simp only [List.length_cons] at h; omega
    have ih := pair_walk_perm hist rest hrest
    by_cases hp : has_played p1 p2 hist
    · rw [show pair_walk hist (p1 :: p2 :: rest) =
          ((pair_walk hist rest).1, p1 :: p2 :: (pair_walk hist rest).2) by
        simp [pair_walk, hp]]
      calc participants (pair_walk hist rest).1 ++ p1 :: p2 :: (pair_walk hist rest).2
          ~ p1 :: (participants (pair_walk hist rest).1 ++ p2 :: (pair_walk hist rest).2) :=
            List.perm_middle
        _ ~ p1 :: p2 :: (participants (pair_walk hist rest).1 ++ (pair_walk hist rest).2) :=
            List.Perm.cons _ List.perm_middle
        _ ~ p1 :: p2 :: rest := List.Perm.cons _ (List.Perm.cons _ ih)
    · rw [show pair_walk hist (p1 :: p2 :: rest) =
          ((p1, p2) :: (pair_walk hist rest).1, (pair_walk hist rest).2) by
        simp [pair_walk, hp]]
      rw [participants_cons]
      exact List.Perm.cons _ (List.Perm.cons _ ih)

/-- The items of all matches the bracket loop emits, padded with some
leftover, permute the carry-forward list plus all brackets. -/
theorem swiss_rounds_perm (hist : List (Item × Item)) :
    ∀ bs carry, ∃ rest,
      (participants (swiss_rounds hist carry bs) ++ rest).Perm (carry ++ bs.flatten)
  | [], carry => ⟨carry, by simp [swiss_rounds, participants]⟩
  | b :: bs, carry => by
    rw [swiss_rounds]
    set bracket := carry ++ b with hbr
    by_cases hodd : bracket.length % 2 ≠ 0
    · -- odd bracket: last element popped into the carry
      have hne : bracket ≠ [] := by
        intro h0; rw [h0] at hodd; simp at hodd
      have hlast : bracket.getLast?.toList = [bracket.getLast hne] := by
        rw [List.getLast?_eq_getLast bracket hne]; rfl
      have heven : bracket.dropLast.length % 2 = 0 := by
        have h1 : bracket.dropLast.length = bracket.length - 1 := List.length_dropLast bracket
        omega
      simp only [if_pos hodd]
      obtain ⟨r, hr⟩ := swiss_rounds_perm hist bs
        (bracket.getLast?.toList ++ (pair_walk hist bracket.dropLast).2)
      refine ⟨r, ?_⟩
      rw [participants_append]
      have hpw := pair_walk_perm hist bracket.dropLast heven
      calc (participants (pair_walk hist bracket.dropLast).1 ++
              participants (swiss_rounds hist
                (bracket.getLast?.toList ++ (pair_walk hist bracket.dropLast).2) bs)) ++ r
          ~ participants (pair_walk hist bracket.dropLast).1 ++
              (participants (swiss_rounds hist
                (bracket.getLast?.toList ++ (pair_walk hist bracket.dropLast).2) bs) ++ r) := by
            rw [List.append_assoc]
        _ ~ participants (pair_walk hist bracket.dropLast).1 ++
              ((bracket.getLast?.toList ++ (pair_walk hist bracket.dropLast).2) ++ bs.flatten) :=
            List.Perm.append_left _ hr
        _ ~ participants (pair_walk hist bracket.dropLast).1 ++
              (((pair_walk hist bracket.dropLast).2 ++ bracket.getLast?.toList) ++ bs.flatten) :=
            List.Perm.append_left _ (List.Perm.append_right _ List.perm_append_comm)
        _ ~ ((participants (pair_walk hist bracket.dropLast).1 ++
              (pair_walk hist bracket.dropLast).2) ++ bracket.getLast?.toList) ++ bs.flatten := by
            simp [List.append_assoc]
        _ ~ (bracket.dropLast ++ bracket.getLast?.toList) ++ bs.flatten :=
            List.Perm.append_right _ (List.Perm.append_right _ hpw)
        _ ~ bracket ++ bs.flatten := by
            rw [hlast, List.dropLast_append_getLast hne]
        _ ~ carry ++ (b :: bs).flatten := by
            rw [hbr]; simp [List.append_assoc]
    · -- even bracket: nothing popped
      have heven : bracket.length % 2 = 0 := by omega
      simp only [if_neg hodd]
      obtain ⟨r, hr⟩ := swiss_rounds_perm hist bs ([] ++ (pair_walk hist bracket).2)
      refine ⟨r, ?_⟩
      rw [participants_append]
      have hpw := pair_walk_perm hist bracket heven
      calc (participants (pair_walk hist bracket).1 ++
              participants (swiss_rounds hist ([] ++ (pair_walk hist bracket).2) bs)) ++ r
          ~ participants (pair_walk hist bracket).1 ++
              (participants (swiss_rounds hist ([] ++ (pair_walk hist bracket).2) bs) ++ r) := by
            rw [List.append_assoc]
        _ ~ participants (pair_walk hist bracket).1 ++
              (([] ++ (pair_walk hist bracket).2) ++ bs.flatten) :=
            List.Perm.append_left _ hr
        _ ~ (participants (pair_walk hist bracket).1 ++ (pair_walk hist bracket).2) ++
              bs.flatten := by simp [List.append_assoc]
        _ ~ bracket ++ bs.flatten := List.Perm.append_right _ hpw
        _ ~ carry ++ (b :: bs).flatten := by
            rw [hbr]; simp [List.append_assoc]

/-- **C1** (no rematch in rating mode): whenever the match history contains
a pair `(a, b)`, no match returned by `create_swiss_pairings` is that pair
in either order; moreover a candidate pair that has already played is not
emitted but deferred — the inner walk pushes both of its items onto the
carry-forward list. -/
theorem no_rematch (shuffle : List Item → List Item) (st : SwissState) (a b : Item)
    (hmem : (a, b) ∈ st.match_history) :
    (∀ m ∈ create_swiss_pairings shuffle st, m ≠ (a, b) ∧ m ≠ (b, a)) ∧
      (∀ p1 p2 rest, has_played p1 p2 st.match_history = true →
        pair_walk st.match_history (p1 :: p2 :: rest) =
          ((pair_walk st.match_history rest).1,
            p1 :: p2 :: (pair_walk st.match_history rest).2)) := by
  constructor
  · intro m hm
    have hfree := swiss_rounds_no_rematch st.match_history _ _ _ hm
    constructor
    · intro he
      rw [he] at hfree
      have : has_played a b st.match_history = true := by
        simp [has_played, hmem]
      rw [this] at hfree; cases hfree
    · intro he
      rw [he] at hfree
      have : has_played b a st.match_history = true := by
        simp [has_played, hmem]
      rw [this] at hfree; cases hfree
  · intro p1 p2 rest hp
    simp [pair_walk, hp]

/-- Witness for `no_rematch`: four items with one pair already played;
identity shuffle.  The emitted pairing list is `[("c", "d")]`. -/
theorem no_rematch_witness :
    ("a", "b") ∈ ([("a", "b")] : List (Item × Item)) ∧
      (∀ m ∈ create_swiss_pairings id
          ⟨[("a", 0), ("b", 0), ("c", 0), ("d", 0)], [("a", "b")], 3, 1, [], 0⟩,
        m ≠ ("a", "b") ∧ m ≠ ("b", "a")) :=
  ⟨by decide,
   (no_rematch id ⟨[("a", 0), ("b", 0), ("c", 0), ("d", 0)], [("a", "b")], 3, 1, [], 0⟩
     "a" "b" (by decide)).1⟩

theorem insert_desc_perm (x : ℚ) : ∀ l : List ℚ, (insert_desc x l).Perm (x :: l)
  | [] => Perm.refl _
  | y :: ys => by
    rw [insert_desc]
    by_cases hc : y ≤ x
    · rw [if_pos hc]
    · rw [if_neg hc]
      exact Perm.trans (Perm.cons y (insert_desc_perm x ys)) (Perm.swap x y ys)

theorem sort_desc_perm : ∀ l : List ℚ, (sort_desc l).Perm l
  | [] => Perm.refl _
  | x :: xs =>
    Perm.trans (insert_desc_perm x (sort_desc xs)) (Perm.cons x (sort_desc_perm xs))

/-- An association list with distinct keys is functional. -/
theorem assoc_functional {β : Type} (ps : List (Item × β))
    (h : (ps.map Prod.fst).Nodup) :
    ∀ {x : Item} {s t : β}, (x, s) ∈ ps → (x, t) ∈ ps → s = t := by
  induction ps with
  | nil => intro x s t hs _; cases hs
  | cons e rest ih =>
    intro x s t hs ht
    rw [List.map_cons, List.nodup_cons] at h
    rcases List.mem_cons.mp hs with h1 | h1 <;> rcases List.mem_cons.mp ht with h2 | h2
    · rw [← h2] at h1
      exact (Prod.ext_iff.mp h1).2
    · exfalso
      apply h.1
      have hx : x ∈ rest.map Prod.fst := List.mem_map_of_mem Prod.fst h2
      rw [← h1]
      exact hx
    · exfalso
      apply h.1
      have hx : x ∈ rest.map Prod.fst := List.mem_map_of_mem Prod.fst h1
      rw [← h2]
      exact hx
    · exact ih h.2 h1 h2

theorem mem_bracket_for {players : List (Item × ℚ)} {s : ℚ} {x : Item}
    (hx : x ∈ bracket_for players s) : (x, s) ∈ players := by
  rw [bracket_for] at hx
  rcases List.mem_map.mp hx with ⟨e, he, hfst⟩
  rcases List.mem_filter.mp he with ⟨hmem, hsnd⟩
  have : e = (x, s) := by
    cases e
    simp only at hfst
    simp only [decide_eq_true_eq] at hsnd
    rw [hfst, hsnd]
  rw [← this]; exact hmem

theorem bracket_for_nodup {players : List (Item × ℚ)}
    (h : (players.map Prod.fst).Nodup) (s : ℚ) : (bracket_for players s).Nodup :=
  List.Nodup.sublist (List.Sublist.map Prod.fst (List.filter_sublist players)) h

theorem brackets_flatten_nodup {players : List (Item × ℚ)}
    (h : (players.map Prod.fst).Nodup) :
    ((sort_desc (score_keys players)).map (bracket_for players)).flatten.Nodup := by
  rw [List.nodup_flatten]
  constructor
  · intro l hl
    rcases List.mem_map.mp hl with ⟨s, _, rfl⟩
    exact bracket_for_nodup h s
  · have hkeys : (sort_desc (score_keys players)).Nodup :=
      (sort_desc_perm (score_keys players)).nodup_iff.mpr (List.nodup_dedup _)
    refine List.Pairwise.map (bracket_for players) ?_ hkeys
    intro s t hst x hxs hxt
    exact hst (assoc_functional players h (mem_bracket_for hxs) (mem_bracket_for hxt))

theorem score_brackets_flatten_perm (shuffle : List Item → List Item)
    (hshuffle : ∀ l, (shuffle l).Perm l) (players : List (Item × ℚ)) :
    (score_brackets shuffle players).flatten.Perm
      ((sort_desc (score_keys players)).map (bracket_for players)).flatten := by
  rw [score_brackets]
  induction sort_desc (score_keys players) with
  | nil => simp
  | cons s rest ih =>
    simp only [List.map_cons, List.flatten_cons]
    exact Perm.append (hshuffle (bracket_for players s)) ih

theorem participants_nodup_ne : ∀ ms : List (Item × Item),
    (participants ms).Nodup → ∀ m ∈ ms, m.1 ≠ m.2
  | [], _, m, hm => absurd hm (List.not_mem_nil m)
  | m0 :: rest, h, m, hm => by
    rw [participants_cons, List.nodup_cons] at h
    rcases List.mem_cons.mp hm with h1 | h1
    · subst h1
      intro he
      exact h.1 (he ▸ List.mem_cons_self _ _)
    · exact participants_nodup_ne rest (List.Nodup.of_cons h.2) m h1

/-- **C10** (disjoint pairings per round): with distinct player keys and a
permuting shuffle, the match list returned by `create_swiss_pairings`
mentions every item at most once — its participants list has no duplicate —
and in particular no match pairs an item with itself. -/
theorem pairings_disjoint (shuffle : List Item → List Item) (st : SwissState)
    (hkeys : (st.players.map Prod.fst).Nodup)
    (hshuffle : ∀ l, (shuffle l).Perm l) :
    (participants (create_swiss_pairings shuffle st)).Nodup ∧
      ∀ m ∈ create_swiss_pairings shuffle st, m.1 ≠ m.2 := by
  obtain ⟨rest, hperm⟩ :=
    swiss_rounds_perm st.match_history (score_brackets shuffle st.players) []
  have hflat : (score_brackets shuffle st.players).flatten.Nodup :=
    (score_brackets_flatten_perm shuffle hshuffle st.players).nodup_iff.mpr
      (brackets_flatten_nodup hkeys)
  have hrhs : (([] : List Item) ++ (score_brackets shuffle st.players).flatten).Nodup := by
    simpa using hflat
  have hlhs : (participants (create_swiss_pairings shuffle st) ++ rest).Nodup :=
    hperm.nodup_iff.mpr hrhs
  have hnd : (participants (create_swiss_pairings shuffle st)).Nodup :=
    List.Nodup.of_append_left hlhs
  exact ⟨hnd, participants_nodup_ne _ hnd⟩

/-- Witness for `pairings_disjoint` at the concrete four-item state of
`no_rematch_witness`. -/
theorem pairings_disjoint_witness :
    (([("a", 0), ("b", 0), ("c", 0), ("d", 0)] : List (Item × ℚ)).map Prod.fst).Nodup ∧
      (participants (create_swiss_pairings id
          ⟨[("a", 0), ("b", 0), ("c", 0), ("d", 0)], [("a", "b")], 3, 1, [], 0⟩)).Nodup ∧
        ∀ m ∈ create_swiss_pairings id
            ⟨[("a", 0), ("b", 0), ("c", 0), ("d", 0)], [("a", "b")], 3, 1, [], 0⟩,
          m.1 ≠ m.2 :=
  ⟨by decide,
   pairings_disjoint id ⟨[("a", 0), ("b", 0), ("c", 0), ("d", 0)], [("a", "b")], 3, 1, [], 0⟩
     (by decide) (fun l => Perm.refl l)⟩

/-! ## ELO bound lemmas -/

theorem expected_score_pos (z : ℝ) : 0 < 1 / (1 + (10 : ℝ) ^ z) := by
  have h := Real.rpow_pos_of_pos (show (0:ℝ) < 10 by norm_num) z
  positivity

theorem expected_score_lt_one (z : ℝ) : 1 / (1 + (10 : ℝ) ^ z) < 1 := by
  have h := Real.rpow_pos_of_pos (show (0:ℝ) < 10 by norm_num) z
  rw [div_lt_one (by linarith)]
  linarith

theorem round_abs_le_of_lt {x : ℝ} (h1 : -32 < x) (h2 : x < 32) : |round x| ≤ 32 := by
  rw [round_eq, abs_le]
  constructor
  · exact Int.le_floor.mpr (by push_cast; linarith)
  · have h3 : ⌊x + 1 / 2⌋ < 33 := Int.floor_lt.mpr (by push_cast; linarith)
    omega

/-- **C7**, counterexample: the conservation bound `|newA - ratingA| ≤ 32`
fails for non-integer ratings.  At `ratingA = 1500.7`, `ratingB = 2900.7`,
`result = 1` the new A rating rounds up to `1533`, a change of `32.3`. -/
theorem elo_bound_fails_for_noninteger_rating :
    (32 : ℝ) < |(((calculate_elo (15007/10) (29007/10) 1).1 : ℝ)) - 15007/10| := by
  have hz : (((29007:ℝ)/10) - 15007/10) / 400 = 7/2 := by norm_num
  have hA : (calculate_elo (15007/10) (29007/10) 1).1 =
      round ((15007/10 : ℝ) +
        32 * (1 - 1 / (1 + (10 : ℝ) ^ ((((29007:ℝ)/10) - 15007/10) / 400)))) := rfl
  rw [hz] at hA
  have ht0 : (0:ℝ) < (10 : ℝ) ^ ((7:ℝ)/2) :=
    Real.rpow_pos_of_pos (by norm_num) _
  have ht1000 : (1000 : ℝ) ≤ (10 : ℝ) ^ ((7:ℝ)/2) := by
    have h3 : (10 : ℝ) ^ ((3:ℕ):ℝ) ≤ (10 : ℝ) ^ ((7:ℝ)/2) :=
      Real.rpow_le_rpow_of_exponent_le (by norm_num) (by push_cast; norm_num)
    rw [Real.rpow_natCast] at h3
    norm_num at h3
    linarith
  have he0 : (0:ℝ) < 1 / (1 + (10 : ℝ) ^ ((7:ℝ)/2)) := by positivity
  have he : 1 / (1 + (10 : ℝ) ^ ((7:ℝ)/2)) ≤ 1 / 1001 := by
    apply one_div_le_one_div_of_le
    · norm_num
    · linarith
  have hround : round ((15007/10 : ℝ) +
      32 * (1 - 1 / (1 + (10 : ℝ) ^ ((7:ℝ)/2)))) = 1533 := by
    rw [round_eq]
    have : (⌊(15007/10 : ℝ) + 32 * (1 - 1 / (1 + (10 : ℝ) ^ ((7:ℝ)/2))) + 1/2⌋ : ℤ) = 1533 := by
      apply Int.floor_eq_iff.mpr
      constructor
      · push_cast
        linarith
      · push_cast
        linarith
    exact this
  rw [hA, hround]
  rw [show |((1533:ℤ) : ℝ) - 15007/10| = 323/10 by
    rw [abs_of_nonneg (by push_cast; norm_num)]
    push_cast; norm_num]
  norm_num

/-- **C7**, amended (rating conservation bound): for *integer* ratings — the
only ratings the program ever stores, since they start at 1500 and every
update is rounded — and every result in `{1.0, 0.0, 0.5}`, the updated
ratings move by at most 32 points each, and a tie between equal ratings
leaves both unchanged.  (For non-integer rating inputs the bound can fail
by the rounding half, see `elo_bound_fails_for_noninteger_rating`.) -/
theorem elo_conservation (ra rb : ℤ) (result : ℝ)
    (hres : result = 0 ∨ result = 1/2 ∨ result = 1) :
    |(calculate_elo ra rb result).1 - ra| ≤ 32 ∧
      |(calculate_elo ra rb result).2 - rb| ≤ 32 ∧
      (ra = rb → result = 1/2 → calculate_elo ra rb result = (ra, rb)) := by
  have hr0 : (0:ℝ) ≤ result := by rcases hres with h | h | h <;> rw [h] <;> norm_num
  have hr1 : result ≤ 1 := by rcases hres with h | h | h <;> rw [h] <;> norm_num
  have he0 := expected_score_pos (((rb:ℝ) - (ra:ℝ)) / 400)
  have he1 := expected_score_lt_one (((rb:ℝ) - (ra:ℝ)) / 400)
  have hA : (calculate_elo ra rb result).1 =
      round ((ra:ℝ) + 32 * (result - 1 / (1 + (10:ℝ) ^ (((rb:ℝ) - (ra:ℝ)) / 400)))) := rfl
  have hB : (calculate_elo ra rb result).2 =
      round ((rb:ℝ) + 32 * ((1 - result) -
        (1 - 1 / (1 + (10:ℝ) ^ (((rb:ℝ) - (ra:ℝ)) / 400))))) := rfl
  set e : ℝ := 1 / (1 + (10:ℝ) ^ (((rb:ℝ) - (ra:ℝ)) / 400)) with hedef
  have hA' : (calculate_elo ra rb result).1 = ra + round (32 * (result - e)) := by
    rw [hA, round_int_add]
  have hBsimp : (rb:ℝ) + 32 * ((1 - result) - (1 - e)) = (rb:ℝ) + 32 * (e - result) := by
    ring
  have hB' : (calculate_elo ra rb result).2 = rb + round (32 * (e - result)) := by
    rw [hB, hBsimp, round_int_add]
  refine ⟨?_, ?_, ?_⟩
  · rw [hA']
    have h1 : (-32:ℝ) < 32 * (result - e) := by nlinarith
    have h2 : 32 * (result - e) < 32 := by nlinarith
    have h3 := round_abs_le_of_lt h1 h2
    rw [show ra + round (32 * (result - e)) - ra = round (32 * (result - e)) by ring]
    exact h3
  · rw [hB']
    have h1 : (-32:ℝ) < 32 * (e - result) := by nlinarith
    have h2 : 32 * (e - result) < 32 := by nlinarith
    have h3 := round_abs_le_of_lt h1 h2
    rw [show rb + round (32 * (e - result)) - rb = round (32 * (e - result)) by ring]
    exact h3
  · intro hab hhalf
    have hz : (((rb:ℝ) - (ra:ℝ)) / 400) = 0 := by rw [hab]; ring
    have hehalf : e = 1/2 := by
      rw [hedef, hz, Real.rpow_zero]; norm_num
    have hAzero : 32 * (result - e) = 0 := by rw [hehalf, hhalf]; ring
    have hBzero : 32 * (e - result) = 0 := by rw [hehalf, hhalf]; ring
    have h1 : (calculate_elo ra rb result).1 = ra := by
      rw [hA', hAzero, round_zero, add_zero]
    have h2 : (calculate_elo ra rb result).2 = rb := by
      rw [hB', hBzero, round_zero, add_zero]
    exact Prod.ext h1 h2

/-- Witness for `elo_conservation`: equal ratings 1500, tie result. -/
theorem elo_conservation_witness :
    ((1:ℝ)/2 = 0 ∨ (1:ℝ)/2 = 1/2 ∨ (1:ℝ)/2 = 1) ∧
      (|(calculate_elo ((1500:ℤ):ℝ) ((1500:ℤ):ℝ) (1/2)).1 - 1500| ≤ 32 ∧
        |(calculate_elo ((1500:ℤ):ℝ) ((1500:ℤ):ℝ) (1/2)).2 - 1500| ≤ 32 ∧
        ((1500:ℤ) = 1500 → (1:ℝ)/2 = 1/2 →
          calculate_elo ((1500:ℤ):ℝ) ((1500:ℤ):ℝ) (1/2) = (1500, 1500))) :=
  ⟨Or.inr (Or.inl rfl), elo_conservation 1500 1500 (1/2) (Or.inr (Or.inl rfl))⟩

/-! ## Players-dict update lemmas -/

theorem keys_map_update (f : PRec → PRec) (p : Item) (ps : List (Item × PRec)) :
    (ps.map (fun e => if e.1 = p then (e.1, f e.2) else e)).map Prod.fst = ps.map Prod.fst := by
  rw [List.map_map]
  apply List.map_congr_left
  intro e _
  by_cases he : e.1 = p <;> simp [he]

theorem find_rec_map_update (f : PRec → PRec) (p q : Item) :
    ∀ ps : List (Item × PRec),
      find_rec q (ps.map (fun e => if e.1 = p then (e.1, f e.2) else e)) =
        if q = p then (find_rec q ps).map f else find_rec q ps
  | [] => by by_cases hqp : q = p <;> simp [find_rec, hqp]
  | e :: rest => by
    have ih := find_rec_map_update f p q rest
    by_cases he : e.1 = p
    · by_cases hq : e.1 = q
      · have hqp : q = p := by rw [← hq, he]
        simp only [List.map_cons, if_pos he, find_rec, if_pos hq, hqp, if_pos]
        rfl
      · have hne : ¬ (e.1 = q) := hq
        simp only [List.map_cons, if_pos he, find_rec, if_neg hne, ih]
    · by_cases hq : e.1 = q
      · have hqp : ¬ q = p := fun hh => he (hq.trans hh)
        simp only [List.map_cons, if_neg he, find_rec, if_pos hq, if_neg hqp]
      · simp only [List.map_cons, if_neg he, find_rec, if_neg hq, ih]

theorem find_rec_set_status (p q : Item) (s : Status) (ps : List (Item × PRec)) :
    find_rec q (set_status p s ps) =
      if q = p then (find_rec q ps).map (fun r => { r with status := s })
      else find_rec q ps := by
  unfold set_status
  exact find_rec_map_update (fun r => { r with status := s }) p q ps

theorem find_rec_set_eliminated (p q : Item) (rnd : ℕ) (ps : List (Item × PRec)) :
    find_rec q (set_eliminated p rnd ps) =
      if q = p then (find_rec q ps).map
        (fun _ => { status := Status.eliminated, eliminated_in_round := some rnd })
      else find_rec q ps := by
  unfold set_eliminated
  exact find_rec_map_update
    (fun _ => { status := Status.eliminated, eliminated_in_round := some rnd }) p q ps

theorem find_rec_set_elim_round (p q : Item) (rnd : ℕ) (ps : List (Item × PRec)) :
    find_rec q (set_elim_round p rnd ps) =
      if q = p then (find_rec q ps).map (fun r => { r with eliminated_in_round := some rnd })
      else find_rec q ps := by
  unfold set_elim_round
  exact find_rec_map_update (fun r => { r with eliminated_in_round := some rnd }) p q ps

theorem keys_set_status (p : Item) (s : Status) (ps : List (Item × PRec)) :
    (set_status p s ps).map Prod.fst = ps.map Prod.fst := by
  unfold set_status
  exact keys_map_update (fun r => { r with status := s }) p ps

theorem keys_set_eliminated (p : Item) (rnd : ℕ) (ps : List (Item × PRec)) :
    (set_eliminated p rnd ps).map Prod.fst = ps.map Prod.fst := by
  unfold set_eliminated
  exact keys_map_update
    (fun _ => { status := Status.eliminated, eliminated_in_round := some rnd }) p ps

theorem keys_set_elim_round (p : Item) (rnd : ℕ) (ps : List (Item × PRec)) :
    (set_elim_round p rnd ps).map Prod.fst = ps.map Prod.fst := by
  unfold set_elim_round
  exact keys_map_update (fun r => { r with eliminated_in_round := some rnd }) p ps

theorem keys_set_all_active (w : List Item) :
    ∀ ps : List (Item × PRec), (set_all_active w ps).map Prod.fst = ps.map Prod.fst := by
  induction w with
  | nil => intro ps; rfl
  | cons p w' ih =>
    intro ps
    show (set_all_active w' (set_status p Status.active ps)).map Prod.fst = _
    rw [ih, keys_set_status]

theorem find_rec_set_all_active (w : List Item) (q : Item) :
    ∀ ps : List (Item × PRec),
      find_rec q (set_all_active w ps) =
        if q ∈ w then (find_rec q ps).map (fun r => { r with status := Status.active })
        else find_rec q ps := by
  induction w with
  | nil => intro ps; simp [set_all_active]
  | cons p w' ih =>
    intro ps
    have step : set_all_active (p :: w') ps = set_all_active w' (set_status p Status.active ps) :=
      rfl
    rw [step, ih, find_rec_set_status]
    by_cases hw : q ∈ w'
    · rw [if_pos hw, if_pos (List.mem_cons_of_mem p hw)]
      by_cases hqp : q = p
      · rw [if_pos hqp]
        cases find_rec q ps <;> rfl
      · rw [if_neg hqp]
    · rw [if_neg hw]
      by_cases hqp : q = p
      · rw [if_pos hqp, if_pos (hqp ▸ List.mem_cons_self p w')]
      · rw [if_neg hqp, if_neg (by simp [hqp, hw])]

theorem find_rec_const (r : PRec) (q : Item) :
    ∀ files : List Item,
      find_rec q (files.map (fun f => (f, r))) = if q ∈ files then some r else none
  | [] => by simp [find_rec]
  | f :: rest => by
    have ih := find_rec_const r q rest
    by_cases hf : f = q
    · simp only [List.map_cons, find_rec, if_pos hf, hf, List.mem_cons, true_or, if_pos]
    · simp only [List.map_cons, find_rec, if_neg hf, ih]
      by_cases hm : q ∈ rest
      · rw [if_pos hm, if_pos (List.mem_cons_of_mem f hm)]
      · have hnf : ¬ q ∈ f :: rest := by
          intro hc
          rcases List.mem_cons.mp hc with hc1 | hc1
          · exact hf hc1.symm
          · exact hm hc1
        rw [if_neg hm, if_neg hnf]

theorem find_rec_mem {q : Item} {r : PRec} :
    ∀ {ps : List (Item × PRec)}, find_rec q ps = some r → (q, r) ∈ ps := by
  intro ps
  induction ps with
  | nil => intro h; cases h
  | cons e rest ih =>
    intro h
    rw [find_rec] at h
    by_cases he : e.1 = q
    · rw [if_pos he] at h
      have : e = (q, r) := by
        cases e; cases h; cases he; rfl
      rw [← this]; exact List.mem_cons_self _ _
    · rw [if_neg he] at h
      exact List.mem_cons_of_mem _ (ih h)

theorem find_rec_eq_none {q : Item} :
    ∀ {ps : List (Item × PRec)}, find_rec q ps = none ↔ q ∉ ps.map Prod.fst := by
  intro ps
  induction ps with
  | nil => simp [find_rec]
  | cons e rest ih =>
    rw [find_rec]
    by_cases he : e.1 = q
    · rw [if_pos he]
      simp [he]
    · rw [if_neg he]
      simp only [List.map_cons, List.mem_cons, ih]
      constructor
      · intro h hmem
        rcases hmem with h1 | h1
        · exact he h1.symm
        · exact h h1
      · intro h h1
        exact h (Or.inr h1)

theorem mem_find_rec {q : Item} {r : PRec} :
    ∀ {ps : List (Item × PRec)}, (ps.map Prod.fst).Nodup → (q, r) ∈ ps →
      find_rec q ps = some r := by
  intro ps
  induction ps with
  | nil => intro _ h; cases h
  | cons e rest ih =>
    intro hnd hmem
    rw [List.map_cons, List.nodup_cons] at hnd
    rw [find_rec]
    rcases List.mem_cons.mp hmem with h1 | h1
    · rw [← h1]
      simp
    · by_cases he : e.1 = q
      · exfalso
        apply hnd.1
        rw [he]
        exact List.mem_map_of_mem Prod.fst h1
      · rw [if_neg he]
        exact ih hnd.2 h1

/-! ## Counting lemmas -/

theorem winners_count_eq_countP (st : ElimState) :
    winners_count st = st.players.countP (fun e => e.2.status = Status.winner) := by
  rw [winners_count, winners_of, List.length_map, List.countP_eq_length_filter]

theorem countP_entries_eq_keys (pred : Item × PRec → Bool) :
    ∀ ps : List (Item × PRec), (ps.map Prod.fst).Nodup →
      ps.countP pred = (ps.map Prod.fst).countP (fun k =>
        match find_rec k ps with
        | some r => pred (k, r)
        | none => false) := by
  intro ps
  induction ps with
  | nil => intro _; rfl
  | cons e rest ih =>
    intro hnd
    rw [List.map_cons, List.nodup_cons] at hnd
    rw [List.countP_cons, List.map_cons, List.countP_cons]
    have htail : (rest.map Prod.fst).countP (fun k =>
        match find_rec k (e :: rest) with
        | some r => pred (k, r)
        | none => false) = (rest.map Prod.fst).countP (fun k =>
        match find_rec k rest with
        | some r => pred (k, r)
        | none => false) := by
      apply List.countP_congr
      intro k hk
      have hne : e.1 ≠ k := fun h => hnd.1 (h ▸ hk)
      rw [show find_rec k (e :: rest) = find_rec k rest by
        rw [find_rec, if_neg hne]]
    rw [htail, ih hnd.2]
    have hfind : find_rec e.1 (e :: rest) = some e.2 := by
      rw [find_rec, if_pos rfl]
    simp only [hfind]

theorem countP_flip_one :
    ∀ (l : List Item), l.Nodup → ∀ (k : Item), k ∈ l →
      ∀ (p q : Item → Bool), (∀ x ∈ l, x ≠ k → q x = p x) → p k = false → q k = true →
        l.countP q = l.countP p + 1 := by
  intro l
  induction l with
  | nil => intro _ k hk; cases hk
  | cons x rest ih =>
    intro hnd k hk p q hother hpk hqk
    rw [List.nodup_cons] at hnd
    rw [List.countP_cons, List.countP_cons]
    by_cases hxk : x = k
    · subst hxk
      have hrw : rest.countP q = rest.countP p := by
        apply List.countP_congr
        intro y hy
        have hyx : y ≠ x := fun h => hnd.1 (h ▸ hy)
        rw [hother y (List.mem_cons_of_mem x hy) hyx]
      rw [hpk, hqk, hrw]
      simp
    · have hkrest : k ∈ rest := by
        rcases List.mem_cons.mp hk with h | h
        · exact absurd h.symm hxk
        · exact h
      have hqx : q x = p x := hother x (List.mem_cons_self x rest) hxk
      rw [hqx, ih hnd.2 k hkrest p q
        (fun y hy hne => hother y (List.mem_cons_of_mem x hy) hne) hpk hqk]
      omega

/-! ## Consecutive-pairing lemmas -/

theorem slice2_cons {α : Type} (x : α) (t : List α) :
    slice2 (x :: t) = x :: slice2 t.tail := by
  cases t <;> rfl

theorem zip_consec_cons_cons (a b : Item) (t : List Item) :
    zip_consec (a :: b :: t) = (a, b) :: zip_consec t := by
  rw [zip_consec, zip_consec]
  rw [show slice2 (a :: b :: t) = a :: slice2 t from rfl]
  rw [show (a :: b :: t).tail = b :: t from rfl, slice2_cons b t]
  rfl

theorem zip_consec_length : ∀ l : List Item, (zip_consec l).length = l.length / 2
  | [] => rfl
  | [x] => by
    rw [show zip_consec [x] = ([] : List (Item × Item)) from rfl]
    simp only [List.length_nil, List.length_cons]
  | a :: b :: t => by
    rw [zip_consec_cons_cons, List.length_cons, zip_consec_length t]
    simp only [List.length_cons]
    omega

theorem participants_zip_consec :
    ∀ l : List Item, participants (zip_consec l) = l.take (2 * (l.length / 2))
  | [] => rfl
  | [x] => by
    rw [show zip_consec [x] = ([] : List (Item × Item)) from rfl, participants_nil]
    have h2 : 2 * ([x].length / 2) = 0 := by
      simp only [List.length_cons, List.length_nil]
    rw [h2, List.take_zero]
  | a :: b :: t => by
    rw [zip_consec_cons_cons, participants_cons, participants_zip_consec t]
    have harith : 2 * ((a :: b :: t).length / 2) = 2 * (t.length / 2) + 1 + 1 := by
      simp only [List.length_cons]
      omega
    rw [harith, List.take_succ_cons, List.take_succ_cons]

theorem zip_consec_get? :
    ∀ (l : List Item) (i : ℕ),
      (zip_consec l).get? i =
        match l.get? (2 * i), l.get? (2 * i + 1) with
        | some x, some y => some (x, y)
        | _, _ => none
  | [], i => by
    cases i <;> rfl
  | [x], i => by
    cases i with
    | zero => rfl
    | succ j =>
      rw [show 2 * (j + 1) = 2 * j + 1 + 1 by omega]
      rw [show zip_consec [x] = [] from rfl]
      rw [List.get?_cons_succ]
      cases ([] : List Item).get? (2 * j + 1) <;> rfl
  | a :: b :: t, i => by
    cases i with
    | zero =>
      rw [zip_consec_cons_cons]
      rfl
    | succ j =>
      rw [zip_consec_cons_cons, List.get?_cons_succ]
      rw [show 2 * (j + 1) = (2 * j + 1) + 1 by omega]
      rw [List.get?_cons_succ, List.get?_cons_succ]
      rw [show 2 * j + 1 + 1 = (2 * j) + 1 + 1 by omega]
      rw [List.get?_cons_succ]
      exact zip_consec_get? t j

/-! ## Round-structure lemmas -/

theorem mem_winners_iff {st : ElimState} (hnd : (st.players.map Prod.fst).Nodup) {q : Item} :
    q ∈ winners_of st ↔ status_in q st = some Status.winner := by
  rw [winners_of, status_in]
  constructor
  · intro h
    rcases List.mem_map.mp h with ⟨e, he, rfl⟩
    rcases List.mem_filter.mp he with ⟨hmem, hstat⟩
    rw [mem_find_rec hnd (show (e.1, e.2) ∈ st.players from hmem)]
    simp only [Option.map_some']
    simp only [decide_eq_true_eq] at hstat
    rw [hstat]
  · intro h
    cases hf : find_rec q st.players with
    | none => rw [hf] at h; cases h
    | some r =>
      rw [hf] at h
      simp only [Option.map_some', Option.some.injEq] at h
      have hmem := find_rec_mem hf
      apply List.mem_map.mpr
      refine ⟨(q, r), List.mem_filter.mpr ⟨hmem, by simp [h]⟩, rfl⟩

theorem winners_of_nodup {st : ElimState} (hnd : (st.players.map Prod.fst).Nodup) :
    (winners_of st).Nodup :=
  List.Nodup.sublist (List.Sublist.map Prod.fst (List.filter_sublist st.players)) hnd

theorem winners_of_sub_keys {st : ElimState} {q : Item} (h : q ∈ winners_of st) :
    q ∈ st.players.map Prod.fst := by
  rw [winners_of] at h
  rcases List.mem_map.mp h with ⟨e, he, rfl⟩
  exact List.mem_map_of_mem Prod.fst (List.mem_filter.mp he).1

/-- Status characterization of `advance_round`: the bye (last of an odd `w`)
is `winner`, every other member of `w` is `active`, everyone else keeps the
old record. -/
theorem find_rec_advance (w : List Item) (st : ElimState) (q : Item) :
    find_rec q (advance_round w st).players =
      if w.length % 2 ≠ 0 ∧ w.getLast? = some q then
        (find_rec q st.players).map (fun r => { r with status := Status.winner })
      else if q ∈ w then
        (find_rec q st.players).map (fun r => { r with status := Status.active })
      else find_rec q st.players := by
  have hplayers : (advance_round w st).players =
      if w.length % 2 ≠ 0 then
        match w.getLast? with
        | some f => set_status f Status.winner (set_all_active w st.players)
        | none => set_all_active w st.players
      else set_all_active w st.players := rfl
  rw [hplayers]
  by_cases hodd : w.length % 2 ≠ 0
  · have hne : w ≠ [] := by
      intro h0; rw [h0] at hodd; simp at hodd
    rw [if_pos hodd, List.getLast?_eq_getLast w hne]
    show find_rec q (set_status (w.getLast hne) Status.winner (set_all_active w st.players)) = _
    rw [find_rec_set_status, find_rec_set_all_active]
    by_cases hq : q = w.getLast hne
    · rw [if_pos hq]
      have hmem : q ∈ w := by rw [hq]; exact List.getLast_mem hne
      rw [if_pos hmem]
      have hcond : w.length % 2 ≠ 0 ∧ some (w.getLast hne) = some q := ⟨hodd, by rw [hq]⟩
      rw [if_pos hcond]
      cases find_rec q st.players <;> rfl
    · rw [if_neg hq]
      have hcond : ¬ (w.length % 2 ≠ 0 ∧ some (w.getLast hne) = some q) := by
        intro hc
        exact hq (Option.some.inj hc.2).symm
      rw [if_neg hcond]
  · rw [if_neg hodd, find_rec_set_all_active]
    have hfalse : ¬ (w.length % 2 ≠ 0 ∧ w.getLast? = some q) := fun hc => hodd hc.1
    rw [if_neg hfalse]

theorem winners_count_eq_keys (st : ElimState) (hnd : (st.players.map Prod.fst).Nodup) :
    winners_count st = (st.players.map Prod.fst).countP
      (fun k => decide (status_in k st = some Status.winner)) := by
  rw [winners_count_eq_countP, countP_entries_eq_keys _ _ hnd]
  apply List.countP_congr
  intro k _
  cases hf : find_rec k st.players with
  | none => simp [status_in, hf]
  | some r => simp [status_in, hf]

theorem keys_advance (w : List Item) (st : ElimState) :
    (advance_round w st).players.map Prod.fst = st.players.map Prod.fst := by
  have hplayers : (advance_round w st).players =
      if w.length % 2 ≠ 0 then
        match w.getLast? with
        | some f => set_status f Status.winner (set_all_active w st.players)
        | none => set_all_active w st.players
      else set_all_active w st.players := rfl
  rw [hplayers]
  by_cases hodd : w.length % 2 ≠ 0
  · rw [if_pos hodd]
    cases w.getLast? with
    | none => exact keys_set_all_active w st.players
    | some f => rw [show (match some f with
        | some f => set_status f Status.winner (set_all_active w st.players)
        | none => set_all_active w st.players) =
          set_status f Status.winner (set_all_active w st.players) from rfl,
        keys_set_status, keys_set_all_active]
  · rw [if_neg hodd]
    exact keys_set_all_active w st.players

/-- After `advance_round` with entrants `w` (a shuffle of the winners), the
only `winner` left is the bye — there is one exactly when `w` is odd. -/
theorem winners_count_advance (w : List Item) (st : ElimState)
    (hkeys : (st.players.map Prod.fst).Nodup)
    (hperm : w.Perm (winners_of st)) :
    winners_count (advance_round w st) = w.length % 2 := by
  have hkadv := keys_advance w st
  have hndadv : ((advance_round w st).players.map Prod.fst).Nodup := by
    rw [hkadv]; exact hkeys
  rw [winners_count_eq_keys _ hndadv, hkadv]
  have hnonbye : ∀ x ∈ st.players.map Prod.fst,
      ¬ (w.length % 2 ≠ 0 ∧ w.getLast? = some x) →
      ¬ status_in x (advance_round w st) = some Status.winner := by
    intro x _ hcond hcontra
    rw [status_in, find_rec_advance, if_neg hcond] at hcontra
    by_cases hxw : x ∈ w
    · rw [if_pos hxw] at hcontra
      cases hf : find_rec x st.players with
      | none => rw [hf] at hcontra; cases hcontra
      | some r =>
        rw [hf] at hcontra
        simp only [Option.map_some', Option.some.injEq] at hcontra
        cases hcontra
    · rw [if_neg hxw] at hcontra
      have hwin : x ∈ winners_of st := (mem_winners_iff hkeys).mpr hcontra
      exact hxw (hperm.mem_iff.mpr hwin)
  by_cases hodd : w.length % 2 ≠ 0
  · have hne : w ≠ [] := by intro h0; rw [h0] at hodd; simp at hodd
    have hlast : w.getLast? = some (w.getLast hne) := List.getLast?_eq_getLast w hne
    have hlmem : w.getLast hne ∈ w := List.getLast_mem hne
    have hlkey : w.getLast hne ∈ st.players.map Prod.fst :=
      winners_of_sub_keys (hperm.mem_iff.mp hlmem)
    have hbye : status_in (w.getLast hne) (advance_round w st) = some Status.winner := by
      rw [status_in, find_rec_advance, if_pos ⟨hodd, hlast⟩]
      cases hf : find_rec (w.getLast hne) st.players with
      | none => exact absurd hlkey (find_rec_eq_none.mp hf)
      | some r => rfl
    have hcount := countP_flip_one (st.players.map Prod.fst) hkeys (w.getLast hne) hlkey
      (fun _ => false)
      (fun k => decide (status_in k (advance_round w st) = some Status.winner))
      (fun x hx hxne => decide_eq_false (hnonbye x hx (fun hc => by
        rw [hlast] at hc
        exact hxne (Option.some.inj hc.2).symm)))
      rfl (by
        show decide (status_in (w.getLast hne) (advance_round w st) = some Status.winner) = true
        rw [hbye]
        rfl)
    rw [hcount]
    simp only [List.countP_false, Function.const_apply]
    omega
  · rw [List.countP_eq_zero.mpr]
    · omega
    · intro x hx hcontra
      have hdec : status_in x (advance_round w st) = some Status.winner :=
        of_decide_eq_true hcontra
      exact hnonbye x hx (fun hc => hodd hc.1) hdec

theorem matchups_advance (w : List Item) (st : ElimState) :
    (advance_round w st).matchups = zip_consec w := rfl

theorem base_players_keys (files : List Item) :
    (files.map (fun f =>
      (f, ({ status := Status.active, eliminated_in_round := none } : PRec)))).map Prod.fst
      = files := by
  rw [List.map_map]
  exact List.map_id'' (fun _ => rfl) files

theorem players_start_odd (shuffle : List Item → List Item) (files0 : List Item)
    (hodd : (shuffle files0).length % 2 ≠ 0) (hne : shuffle files0 ≠ []) :
    (start_elim shuffle files0).players =
      set_status ((shuffle files0).getLast hne) Status.winner
        ((shuffle files0).map (fun f =>
          (f, { status := Status.active, eliminated_in_round := none }))) := by
  unfold start_elim
  simp only [if_pos hodd, List.getLast?_eq_getLast _ hne]

theorem matchups_start (shuffle : List Item → List Item) (files0 : List Item) :
    (start_elim shuffle files0).matchups = zip_consec (shuffle files0) := by
  unfold start_elim
  by_cases hodd : (shuffle files0).length % 2 ≠ 0
  · simp only [if_pos hodd]
    cases (shuffle files0).getLast? <;> rfl
  · simp only [if_neg hodd]

theorem keys_start (shuffle : List Item → List Item) (files0 : List Item) :
    (start_elim shuffle files0).players.map Prod.fst = shuffle files0 := by
  unfold start_elim
  by_cases hodd : (shuffle files0).length % 2 ≠ 0
  · simp only [if_pos hodd]
    cases (shuffle files0).getLast? with
    | none => exact base_players_keys _
    | some f =>
      show (set_status f Status.winner _).map Prod.fst = _
      rw [keys_set_status]
      exact base_players_keys _
  · simp only [if_neg hodd]
    exact base_players_keys _

theorem getLast_not_mem_zip_consec_participants (w : List Item)
    (hodd : w.length % 2 = 1) (hnd : w.Nodup) (hne : w ≠ []) :
    w.getLast hne ∉ participants (zip_consec w) := by
  rw [participants_zip_consec]
  have hlen : 0 < w.length := List.length_pos.mpr hne
  have h1 : 2 * (w.length / 2) = w.length - 1 := by omega
  rw [h1, ← List.dropLast_eq_take]
  intro hmem
  have h2 := List.dropLast_append_getLast hne
  have hnd2 : (w.dropLast ++ [w.getLast hne]).Nodup := by rw [h2]; exact hnd
  rw [List.nodup_append] at hnd2
  exact hnd2.2.2 hmem (List.mem_singleton_self _)

/-- **C9** (bye on odd player count): whenever the items entering a round —
the shuffled initial list in `start_tournament`, or the shuffled winners
`w` of the previous round in the advancement step — are odd in number,
exactly one item, the last after the shuffle, is set `status = winner`
without a match; it appears in none of the round's matchups, every other
entrant is `active`, and the matchups pair the entrants consecutively
(`matchups[i] = (entrants[2i], entrants[2i+1])`). -/
theorem odd_count_bye (shuffle : List Item → List Item) (files0 : List Item)
    (w : List Item) (st : ElimState)
    (hso : (shuffle files0).length % 2 = 1) (hsnd : (shuffle files0).Nodup)
    (hkeys : (st.players.map Prod.fst).Nodup)
    (hwodd : w.length % 2 = 1) (hwnd : w.Nodup) (hperm : w.Perm (winners_of st)) :
    (∀ x, (shuffle files0).getLast? = some x →
      status_in x (start_elim shuffle files0) = some Status.winner ∧
      x ∉ participants (start_elim shuffle files0).matchups ∧
      (∀ p ∈ shuffle files0, p ≠ x →
        status_in p (start_elim shuffle files0) = some Status.active) ∧
      winners_count (start_elim shuffle files0) = 1) ∧
    (start_elim shuffle files0).matchups = zip_consec (shuffle files0) ∧
    (∀ i, (start_elim shuffle files0).matchups.get? i =
      match (shuffle files0).get? (2 * i), (shuffle files0).get? (2 * i + 1) with
      | some x, some y => some (x, y)
      | _, _ => none) ∧
    (∀ y, w.getLast? = some y →
      status_in y (advance_round w st) = some Status.winner ∧
      y ∉ participants (advance_round w st).matchups ∧
      (∀ p ∈ w, p ≠ y → status_in p (advance_round w st) = some Status.active) ∧
      winners_count (advance_round w st) = 1) ∧
    (advance_round w st).matchups = zip_consec w ∧
    (∀ i, (advance_round w st).matchups.get? i =
      match w.get? (2 * i), w.get? (2 * i + 1) with
      | some x, some y => some (x, y)
      | _, _ => none) := by
  have hsodd : (shuffle files0).length % 2 ≠ 0 := by omega
  have hsne : shuffle files0 ≠ [] := by
    intro h0; rw [h0] at hso; simp at hso
  have hwodd' : w.length % 2 ≠ 0 := by omega
  have hwne : w ≠ [] := by
    intro h0; rw [h0] at hwodd; simp at hwodd
  have hpl := players_start_odd shuffle files0 hsodd hsne
  refine ⟨?_, matchups_start shuffle files0, ?_, ?_, matchups_advance w st, ?_⟩
  · intro x hx
    have hxeq : x = (shuffle files0).getLast hsne := by
      rw [List.getLast?_eq_getLast _ hsne] at hx
      exact (Option.some.inj hx).symm
    subst hxeq
    have hstatus : ∀ q, status_in q (start_elim shuffle files0) =
        ((if q = (shuffle files0).getLast hsne then
          (find_rec q ((shuffle files0).map (fun f =>
            (f, { status := Status.active, eliminated_in_round := none })))).map
              (fun r => { r with status := Status.winner })
        else find_rec q ((shuffle files0).map (fun f =>
            (f, { status := Status.active, eliminated_in_round := none }))))).map
          PRec.status := by
      intro q
      rw [status_in, hpl, find_rec_set_status]
    refine ⟨?_, ?_, ?_, ?_⟩
    · rw [hstatus, if_pos rfl, find_rec_const,
        if_pos (List.getLast_mem hsne)]
      rfl
    · rw [matchups_start]
      exact getLast_not_mem_zip_consec_participants _ hso hsnd hsne
    · intro p hp hpne
      rw [hstatus, if_neg hpne, find_rec_const, if_pos hp]
      rfl
    · have hndkeys : ((start_elim shuffle files0).players.map Prod.fst).Nodup := by
        rw [keys_start]; exact hsnd
      rw [winners_count_eq_keys _ hndkeys, keys_start]
      have hcount := countP_flip_one (shuffle files0) hsnd ((shuffle files0).getLast hsne)
        (List.getLast_mem hsne)
        (fun _ => false)
        (fun k => decide (status_in k (start_elim shuffle files0) = some Status.winner))
        (fun p hp hpne => by
          show decide (status_in p (start_elim shuffle files0) = some Status.winner) = false
          apply decide_eq_false
          rw [hstatus, if_neg hpne, find_rec_const, if_pos hp]
          intro hc
          cases hc)
        rfl
        (by
          show decide (status_in ((shuffle files0).getLast hsne) (start_elim shuffle files0) =
            some Status.winner) = true
          rw [hstatus, if_pos rfl, find_rec_const, if_pos (List.getLast_mem hsne)]
          rfl)
      rw [hcount]
      simp only [List.countP_false, Function.const_apply]
  · intro i
    rw [matchups_start]
    exact zip_consec_get? (shuffle files0) i
  · intro y hy
    have hyeq : y = w.getLast hwne := by
      rw [List.getLast?_eq_getLast _ hwne] at hy
      exact (Option.some.inj hy).symm
    have hykey : y ∈ st.players.map Prod.fst := by
      apply winners_of_sub_keys
      apply hperm.mem_iff.mp
      rw [hyeq]
      exact List.getLast_mem hwne
    refine ⟨?_, ?_, ?_, ?_⟩
    · rw [status_in, find_rec_advance, if_pos ⟨hwodd', hy⟩]
      cases hf : find_rec y st.players with
      | none => exact absurd hykey (find_rec_eq_none.mp hf)
      | some r => rfl
    · rw [matchups_advance, hyeq]
      exact getLast_not_mem_zip_consec_participants _ hwodd hwnd hwne
    · intro p hp hpne
      have hpkey : p ∈ st.players.map Prod.fst :=
        winners_of_sub_keys (hperm.mem_iff.mp hp)
      rw [status_in, find_rec_advance]
      have hcond : ¬ (w.length % 2 ≠ 0 ∧ w.getLast? = some p) := by
        intro hc
        rw [hy] at hc
        exact hpne (Option.some.inj hc.2.symm)
      rw [if_neg hcond, if_pos hp]
      cases hf : find_rec p st.players with
      | none => exact absurd hpkey (find_rec_eq_none.mp hf)
      | some r => rfl
    · rw [winners_count_advance w st hkeys hperm, hwodd]
  · intro i
    rw [matchups_advance]
    exact zip_consec_get? w i

/-- Witness for `odd_count_bye`: three items, identity shuffle, and a
three-winner state entering the next round. -/
theorem odd_count_bye_witness :
    (id ["a", "b", "c"] : List Item).length % 2 = 1 ∧
      (["a", "b", "c"] : List Item).Perm (winners_of
        ⟨[("a", ⟨Status.winner, none⟩), ("b", ⟨Status.winner, none⟩),
          ("c", ⟨Status.winner, none⟩)], [("a", "b")], 1, 1⟩) ∧
      status_in "c" (start_elim id ["a", "b", "c"]) = some Status.winner ∧
      winners_count (advance_round ["a", "b", "c"]
        ⟨[("a", ⟨Status.winner, none⟩), ("b", ⟨Status.winner, none⟩),
          ("c", ⟨Status.winner, none⟩)], [("a", "b")], 1, 1⟩) = 1 := by
  have h := odd_count_bye id ["a", "b", "c"] ["a", "b", "c"]
    ⟨[("a", ⟨Status.winner, none⟩), ("b", ⟨Status.winner, none⟩),
      ("c", ⟨Status.winner, none⟩)], [("a", "b")], 1, 1⟩
    (by decide) (by decide) (by decide) (by decide) (by decide) (by decide)
  refine ⟨by decide, by decide, ?_, ?_⟩
  · exact (h.1 "c" (by decide)).1
  · exact (h.2.2.2.1 "c" (by decide)).2.2.2

theorem status_in_mem_keys {q : Item} {st : ElimState} {s : Status}
    (h : status_in q st = some s) : q ∈ st.players.map Prod.fst := by
  rw [status_in] at h
  cases hf : find_rec q st.players with
  | none => rw [hf] at h; cases h
  | some r => exact List.mem_map_of_mem Prod.fst (find_rec_mem hf)

/-- Resolving all remaining matches of a round (one non-tie vote each):
the cursor reaches the end, each vote's winner and loser leave `active`,
untouched players keep their record, and the winner count grows by exactly
one per vote. -/
theorem play_round :
    ∀ (outs : List Outcome) (st : ElimState),
      (st.players.map Prod.fst).Nodup →
      outs.length = st.matchups.length - st.current_match_index →
      (∀ o ∈ outs, o ≠ Outcome.TIE) →
      (participants (st.matchups.drop st.current_match_index)).Nodup →
      (∀ p ∈ participants (st.matchups.drop st.current_match_index),
        status_in p st = some Status.active) →
      ∃ st2, fold_votes outs st = some st2 ∧
        st2.players.map Prod.fst = st.players.map Prod.fst ∧
        st2.matchups = st.matchups ∧
        st2.round = st.round ∧
        st2.current_match_index = st.current_match_index + outs.length ∧
        (∀ q, q ∉ participants (st.matchups.drop st.current_match_index) →
          find_rec q st2.players = find_rec q st.players) ∧
        winners_count st2 = winners_count st + outs.length ∧
        (∀ q ∈ participants (st.matchups.drop st.current_match_index),
          status_in q st2 = some Status.winner ∨ status_in q st2 = some Status.eliminated)
  | [], st, hnd, hlen, hnt, hrnd, hract => by
    have hle : st.matchups.length ≤ st.current_match_index := by
      simp only [List.length_nil] at hlen
      omega
    have hdrop : st.matchups.drop st.current_match_index = [] :=
      List.drop_eq_nil_of_le hle
    refine ⟨st, rfl, rfl, rfl, rfl, by simp, fun q _ => rfl, by simp, ?_⟩
    rw [hdrop]
    intro q hq
    cases hq
  | o :: rest, st, hnd, hlen, hnt, hrnd, hract => by
    have ho : o ≠ Outcome.TIE := hnt o (List.mem_cons_self _ _)
    have hidx : st.current_match_index < st.matchups.length := by
      simp only [List.length_cons] at hlen
      omega
    have hm : st.matchups.get? st.current_match_index =
        some (st.matchups.get ⟨st.current_match_index, hidx⟩) := List.get?_eq_get hidx
    set m := st.matchups.get ⟨st.current_match_index, hidx⟩ with hmdef
    have hdrop : st.matchups.drop st.current_match_index =
        m :: st.matchups.drop (st.current_match_index + 1) := List.drop_eq_get_cons hidx
    rw [hdrop, participants_cons] at hrnd hract
    have hne12 : m.1 ≠ m.2 := by
      rcases List.nodup_cons.mp hrnd with ⟨h1, _⟩
      exact fun h => h1 (h ▸ List.mem_cons_self _ _)
    have h1nr : m.1 ∉ participants (st.matchups.drop (st.current_match_index + 1)) := by
      rcases List.nodup_cons.mp hrnd with ⟨h1, _⟩
      exact fun h => h1 (List.mem_cons_of_mem _ h)
    have h2nr : m.2 ∉ participants (st.matchups.drop (st.current_match_index + 1)) :=
      (List.nodup_cons.mp (List.nodup_cons.mp hrnd).2).1
    have hrnd' : (participants (st.matchups.drop (st.current_match_index + 1))).Nodup :=
      (List.nodup_cons.mp (List.nodup_cons.mp hrnd).2).2
    have hact1 : status_in m.1 st = some Status.active :=
      hract m.1 (List.mem_cons_self _ _)
    have hact2 : status_in m.2 st = some Status.active :=
      hract m.2 (List.mem_cons_of_mem _ (List.mem_cons_self _ _))
    obtain ⟨wi, lo, hcase, hvote⟩ : ∃ wi lo,
        ((wi = m.1 ∧ lo = m.2) ∨ (wi = m.2 ∧ lo = m.1)) ∧
          vote_elim o st = some { st with
            players := set_eliminated lo st.round (set_status wi Status.winner st.players),
            current_match_index := st.current_match_index + 1 } := by
      cases o with
      | TIE => exact absurd rfl ho
      | A =>
        refine ⟨m.1, m.2, Or.inl ⟨rfl, rfl⟩, ?_⟩
        rw [vote_elim, if_neg ho, hm]
        rfl
      | B =>
        refine ⟨m.2, m.1, Or.inr ⟨rfl, rfl⟩, ?_⟩
        rw [vote_elim, if_neg ho, hm]
        rfl
    have hwl_ne : wi ≠ lo := by
      rcases hcase with ⟨h1, h2⟩ | ⟨h1, h2⟩
      · rw [h1, h2]; exact hne12
      · rw [h1, h2]; exact hne12.symm
    have hact_wi : status_in wi st = some Status.active := by
      rcases hcase with ⟨h1, _⟩ | ⟨h1, _⟩ <;> rw [h1]
      · exact hact1
      · exact hact2
    have hact_lo : status_in lo st = some Status.active := by
      rcases hcase with ⟨_, h2⟩ | ⟨_, h2⟩ <;> rw [h2]
      · exact hact2
      · exact hact1
    have hwinr : wi ∉ participants (st.matchups.drop (st.current_match_index + 1)) := by
      rcases hcase with ⟨h1, _⟩ | ⟨h1, _⟩ <;> rw [h1]
      · exact h1nr
      · exact h2nr
    have hlonr : lo ∉ participants (st.matchups.drop (st.current_match_index + 1)) := by
      rcases hcase with ⟨_, h2⟩ | ⟨_, h2⟩ <;> rw [h2]
      · exact h2nr
      · exact h1nr
    set stv : ElimState := { st with
        players := set_eliminated lo st.round (set_status wi Status.winner st.players),
        current_match_index := st.current_match_index + 1 } with hstv
    have hfind : ∀ q, find_rec q stv.players =
        if q = lo then (find_rec q st.players).map (fun _ =>
          { status := Status.eliminated, eliminated_in_round := some st.round })
        else if q = wi then
          (find_rec q st.players).map (fun r => { r with status := Status.winner })
        else find_rec q st.players := by
      intro q
      show find_rec q (set_eliminated lo st.round (set_status wi Status.winner st.players)) = _
      rw [find_rec_set_eliminated, find_rec_set_status]
      by_cases hql : q = lo
      · rw [if_pos hql, if_pos hql]
        by_cases hqw : q = wi
        · rw [if_pos hqw]
          cases find_rec q st.players <;> rfl
        · rw [if_neg hqw]
      · rw [if_neg hql, if_neg hql]
    have hkeys' : stv.players.map Prod.fst = st.players.map Prod.fst := by
      show (set_eliminated lo st.round (set_status wi Status.winner st.players)).map Prod.fst = _
      rw [keys_set_eliminated, keys_set_status]
    have hnd' : (stv.players.map Prod.fst).Nodup := by rw [hkeys']; exact hnd
    have hlen' : rest.length = stv.matchups.length - stv.current_match_index := by
      show rest.length = st.matchups.length - (st.current_match_index + 1)
      simp only [List.length_cons] at hlen
      omega
    have hdrop' : stv.matchups.drop stv.current_match_index =
        st.matchups.drop (st.current_match_index + 1) := rfl
    have hnt' : ∀ o' ∈ rest, o' ≠ Outcome.TIE :=
      fun o' h => hnt o' (List.mem_cons_of_mem _ h)
    have hract' : ∀ p ∈ participants (stv.matchups.drop stv.current_match_index),
        status_in p stv = some Status.active := by
      intro p hp
      rw [hdrop'] at hp
      have hp1 : p ≠ wi := fun h => hwinr (h ▸ hp)
      have hp2 : p ≠ lo := fun h => hlonr (h ▸ hp)
      rw [status_in, hfind p, if_neg hp2, if_neg hp1]
      have := hract p (List.mem_cons_of_mem _ (List.mem_cons_of_mem _ hp))
      rw [status_in] at this
      exact this
    obtain ⟨st2, hfold, hk2, hm2, hr2, hi2, hun2, hw2, hst2⟩ :=
      play_round rest stv hnd' hlen' hnt' (by rw [hdrop']; exact hrnd') hract'
    have hfind_wi_st : ∃ r, find_rec wi st.players = some r := by
      rw [status_in] at hact_wi
      cases hf : find_rec wi st.players with
      | none => rw [hf] at hact_wi; cases hact_wi
      | some r => exact ⟨r, rfl⟩
    have hwi_stv : status_in wi stv = some Status.winner := by
      obtain ⟨r, hr⟩ := hfind_wi_st
      rw [status_in, hfind wi, if_neg hwl_ne, if_pos rfl, hr]
      rfl
    have hfind_lo_st : ∃ r, find_rec lo st.players = some r := by
      rw [status_in] at hact_lo
      cases hf : find_rec lo st.players with
      | none => rw [hf] at hact_lo; cases hact_lo
      | some r => exact ⟨r, rfl⟩
    have hlo_stv : status_in lo stv = some Status.eliminated := by
      obtain ⟨r, hr⟩ := hfind_lo_st
      rw [status_in, hfind lo, if_pos rfl, hr]
      rfl
    have hwi_st2 : status_in wi st2 = some Status.winner := by
      rw [status_in, hun2 wi (by rw [hdrop']; exact hwinr)]
      rw [status_in] at hwi_stv
      exact hwi_stv
    have hlo_st2 : status_in lo st2 = some Status.eliminated := by
      rw [status_in, hun2 lo (by rw [hdrop']; exact hlonr)]
      rw [status_in] at hlo_stv
      exact hlo_stv
    have hcount1 : winners_count stv = winners_count st + 1 := by
      rw [winners_count_eq_keys st hnd, winners_count_eq_keys stv hnd', hkeys']
      have hwikey : wi ∈ st.players.map Prod.fst := status_in_mem_keys hact_wi
      apply countP_flip_one (st.players.map Prod.fst) hnd wi hwikey
      · intro x _ hxwi
        show decide (status_in x stv = some Status.winner) =
          decide (status_in x st = some Status.winner)
        by_cases hxlo : x = lo
        · rw [hxlo, hlo_stv, hact_lo]
          rfl
        · rw [show status_in x stv = status_in x st by
            rw [status_in, status_in, hfind x, if_neg hxlo, if_neg hxwi]]
      · show decide (status_in wi st = some Status.winner) = false
        rw [hact_wi]
        rfl
      · show decide (status_in wi stv = some Status.winner) = true
        rw [hwi_stv]
        rfl
    refine ⟨st2, ?_, ?_, ?_, ?_, ?_, ?_, ?_, ?_⟩
    · show (vote_elim o st).bind (fold_votes rest) = some st2
      rw [hvote]
      exact hfold
    · rw [hk2, hkeys']
    · rw [hm2]
    · rw [hr2]
    · rw [hi2]
      show stv.current_match_index + rest.length = _
      simp only [List.length_cons]
      show st.current_match_index + 1 + rest.length = _
      omega
    · intro q hq
      rw [hdrop, participants_cons] at hq
      have hq1 : q ≠ m.1 := fun h => hq (h ▸ List.mem_cons_self _ _)
      have hq2 : q ≠ m.2 :=
        fun h => hq (h ▸ List.mem_cons_of_mem _ (List.mem_cons_self _ _))
      have hqr : q ∉ participants (st.matchups.drop (st.current_match_index + 1)) :=
        fun h => hq (List.mem_cons_of_mem _ (List.mem_cons_of_mem _ h))
      have hqw : q ≠ wi := by
        rcases hcase with ⟨h1, _⟩ | ⟨h1, _⟩ <;> rw [h1]
        · exact hq1
        · exact hq2
      have hql : q ≠ lo := by
        rcases hcase with ⟨_, h2⟩ | ⟨_, h2⟩ <;> rw [h2]
        · exact hq2
        · exact hq1
      rw [hun2 q (by rw [hdrop']; exact hqr), hfind q, if_neg hql, if_neg hqw]
    · rw [hw2, hcount1]
      simp only [List.length_cons]
      omega
    · intro q hq
      rw [hdrop, participants_cons] at hq
      rcases List.mem_cons.mp hq with hq1 | hq'
      · rcases hcase with ⟨h1, _⟩ | ⟨_, h2⟩
        · exact Or.inl (by rw [hq1, ← h1]; exact hwi_st2)
        · exact Or.inr (by rw [hq1, ← h2]; exact hlo_st2)
      · rcases List.mem_cons.mp hq' with hq2 | hqr
        · rcases hcase with ⟨_, h2⟩ | ⟨h1, _⟩
          · exact Or.inr (by rw [hq2, ← h2]; exact hlo_st2)
          · exact Or.inl (by rw [hq2, ← h1]; exact hwi_st2)
        · exact hst2 q (by rw [hdrop']; exact hqr)

/-- **C3**, amended (bracket monotonicity): in elimination mode the winner
count strictly decreases round over round — advancing a round with entrants
`w` (`|w| ≥ 2`, a shuffle of the current winners) and resolving all of its
`⌊|w|/2⌋` matches with non-tie votes leaves exactly `⌈|w|/2⌉ < |w|` winners
— and within the round statuses only move out of `active`: eliminated
players stay eliminated, and any player whose status changes during the
round's votes was `active` when the round began.  (The claim's further
assertion that a status never leaves `winner` is false: round advancement
resets surviving winners to `active`, see `winner_status_reverses`.) -/
theorem bracket_monotonic (w : List Item) (st : ElimState) (outs : List Outcome)
    (hkeys : (st.players.map Prod.fst).Nodup)
    (hperm : w.Perm (winners_of st))
    (hlen2 : 2 ≤ w.length)
    (houts : outs.length = w.length / 2)
    (hnt : ∀ o ∈ outs, o ≠ Outcome.TIE) :
    ∃ st2, fold_votes outs (advance_round w st) = some st2 ∧
      winners_count st2 = (w.length + 1) / 2 ∧
      winners_count st2 < winners_count st ∧
      (∀ q, status_in q (advance_round w st) = some Status.eliminated →
        status_in q st2 = some Status.eliminated) ∧
      (∀ q, status_in q st2 ≠ status_in q (advance_round w st) →
        status_in q (advance_round w st) = some Status.active) := by
  have hwnd : w.Nodup := hperm.nodup_iff.mpr (winners_of_nodup hkeys)
  have hk1 : (advance_round w st).players.map Prod.fst = st.players.map Prod.fst :=
    keys_advance w st
  have hnd1 : ((advance_round w st).players.map Prod.fst).Nodup := by
    rw [hk1]; exact hkeys
  have hidx0 : (advance_round w st).current_match_index = 0 := rfl
  have hdrop0 : (advance_round w st).matchups.drop
      (advance_round w st).current_match_index = zip_consec w := by
    rw [hidx0, matchups_advance, List.drop_zero]
  have hpart_sub : ∀ p ∈ participants (zip_consec w), p ∈ w := by
    intro p hp
    rw [participants_zip_consec] at hp
    exact List.mem_of_mem_take hp
  have hpart_nd : (participants (zip_consec w)).Nodup := by
    rw [participants_zip_consec]
    exact List.Nodup.sublist (List.take_sublist _ _) hwnd
  have hact : ∀ p ∈ participants (zip_consec w),
      status_in p (advance_round w st) = some Status.active := by
    intro p hp
    have hpw : p ∈ w := hpart_sub p hp
    have hpkey : p ∈ st.players.map Prod.fst :=
      winners_of_sub_keys (hperm.mem_iff.mp hpw)
    have hcond : ¬ (w.length % 2 ≠ 0 ∧ w.getLast? = some p) := by
      intro ⟨ho', hl⟩
      have hodd1 : w.length % 2 = 1 := by omega
      have hne : w ≠ [] := by
        intro h0
        rw [h0] at hodd1
        simp at hodd1
      have hpeq : p = w.getLast hne := by
        rw [List.getLast?_eq_getLast _ hne] at hl
        exact (Option.some.inj hl).symm
      exact getLast_not_mem_zip_consec_participants w hodd1 hwnd hne (hpeq ▸ hp)
    rw [status_in, find_rec_advance, if_neg hcond, if_pos hpw]
    cases hf : find_rec p st.players with
    | none => exact absurd hpkey (find_rec_eq_none.mp hf)
    | some r => rfl
  have houts' : outs.length = (advance_round w st).matchups.length -
      (advance_round w st).current_match_index := by
    rw [hidx0, matchups_advance, zip_consec_length, Nat.sub_zero, houts]
  obtain ⟨st2, hfold, hk2, _, _, _, hun2, hw2, _⟩ :=
    play_round outs (advance_round w st) hnd1 houts' hnt
      (by rw [hdrop0]; exact hpart_nd)
      (by rw [hdrop0]; exact hact)
  have hwadv : winners_count (advance_round w st) = w.length % 2 :=
    winners_count_advance w st hkeys hperm
  have hwst : winners_count st = w.length := by
    rw [winners_count, ← hperm.length_eq]
  refine ⟨st2, hfold, ?_, ?_, ?_, ?_⟩
  · rw [hw2, hwadv, houts]
    omega
  · rw [hw2, hwadv, houts, hwst]
    omega
  · intro q hq
    have hqnp : q ∉ participants (zip_consec w) := by
      intro hc
      rw [hact q hc] at hq
      cases hq
    rw [status_in, hun2 q (by rw [hdrop0]; exact hqnp)]
    rw [status_in] at hq
    exact hq
  · intro q hq
    by_cases hqp : q ∈ participants (zip_consec w)
    · exact hact q hqp
    · exfalso
      apply hq
      rw [status_in, status_in, hun2 q (by rw [hdrop0]; exact hqp)]

/-- Witness for `bracket_monotonic`: three winners enter the next round,
one vote resolves its single match. -/
theorem bracket_monotonic_witness :
    ((([("a", ⟨Status.winner, none⟩), ("b", ⟨Status.winner, none⟩),
        ("c", ⟨Status.winner, none⟩)] : List (Item × PRec)).map Prod.fst).Nodup ∧
      (["a", "b", "c"] : List Item).Perm (winners_of
        ⟨[("a", ⟨Status.winner, none⟩), ("b", ⟨Status.winner, none⟩),
          ("c", ⟨Status.winner, none⟩)], [("a", "b")], 1, 1⟩) ∧
      2 ≤ (["a", "b", "c"] : List Item).length ∧
      ([Outcome.A] : List Outcome).length = (["a", "b", "c"] : List Item).length / 2) ∧
    ∃ st2, fold_votes [Outcome.A] (advance_round ["a", "b", "c"]
        ⟨[("a", ⟨Status.winner, none⟩), ("b", ⟨Status.winner, none⟩),
          ("c", ⟨Status.winner, none⟩)], [("a", "b")], 1, 1⟩) = some st2 ∧
      winners_count st2 = ((["a", "b", "c"] : List Item).length + 1) / 2 ∧
      winners_count st2 < winners_count
        ⟨[("a", ⟨Status.winner, none⟩), ("b", ⟨Status.winner, none⟩),
          ("c", ⟨Status.winner, none⟩)], [("a", "b")], 1, 1⟩ ∧
      (∀ q, status_in q (advance_round ["a", "b", "c"]
          ⟨[("a", ⟨Status.winner, none⟩), ("b", ⟨Status.winner, none⟩),
            ("c", ⟨Status.winner, none⟩)], [("a", "b")], 1, 1⟩) = some Status.eliminated →
        status_in q st2 = some Status.eliminated) ∧
      (∀ q, status_in q st2 ≠ status_in q (advance_round ["a", "b", "c"]
          ⟨[("a", ⟨Status.winner, none⟩), ("b", ⟨Status.winner, none⟩),
            ("c", ⟨Status.winner, none⟩)], [("a", "b")], 1, 1⟩) →
        status_in q (advance_round ["a", "b", "c"]
          ⟨[("a", ⟨Status.winner, none⟩), ("b", ⟨Status.winner, none⟩),
            ("c", ⟨Status.winner, none⟩)], [("a", "b")], 1, 1⟩) = some Status.active) :=
  ⟨⟨by decide, by decide, by decide, by decide⟩,
   bracket_monotonic ["a", "b", "c"]
     ⟨[("a", ⟨Status.winner, none⟩), ("b", ⟨Status.winner, none⟩),
       ("c", ⟨Status.winner, none⟩)], [("a", "b")], 1, 1⟩
     [Outcome.A] (by decide) (by decide) (by decide) (by decide)
     (fun o ho => by
       rcases List.mem_singleton.mp ho with rfl
       decide)⟩

/-! ## Ranking lemmas -/

theorem insert_row_desc_perm (x : Item × ℕ) :
    ∀ l : List (Item × ℕ), (insert_row_desc x l).Perm (x :: l)
  | [] => Perm.refl _
  | y :: ys => by
    rw [insert_row_desc]
    by_cases hc : y.2 ≤ x.2
    · rw [if_pos hc]
    · rw [if_neg hc]
      exact Perm.trans (Perm.cons y (insert_row_desc_perm x ys)) (Perm.swap x y ys)

theorem sort_rows_desc_perm : ∀ l : List (Item × ℕ), (sort_rows_desc l).Perm l
  | [] => Perm.refl _
  | x :: xs =>
    Perm.trans (insert_row_desc_perm x (sort_rows_desc xs))
      (Perm.cons x (sort_rows_desc_perm xs))

theorem insert_row_desc_sorted (x : Item × ℕ) :
    ∀ l : List (Item × ℕ), List.Pairwise (fun a b : Item × ℕ => b.2 ≤ a.2) l →
      List.Pairwise (fun a b : Item × ℕ => b.2 ≤ a.2) (insert_row_desc x l)
  | [], _ => List.pairwise_cons.mpr ⟨fun _ h => absurd h (List.not_mem_nil _), List.Pairwise.nil⟩
  | y :: ys, h => by
    rw [insert_row_desc]
    rcases List.pairwise_cons.mp h with ⟨hy, hys⟩
    by_cases hc : y.2 ≤ x.2
    · rw [if_pos hc]
      apply List.pairwise_cons.mpr
      refine ⟨?_, h⟩
      intro z hz
      rcases List.mem_cons.mp hz with hz1 | hz1
      · rw [hz1]; exact hc
      · exact le_trans (hy z hz1) hc
    · rw [if_neg hc]
      apply List.pairwise_cons.mpr
      constructor
      · intro z hz
        have hz' := (insert_row_desc_perm x ys).mem_iff.mp hz
        rcases List.mem_cons.mp hz' with hz1 | hz1
        · rw [hz1]; omega
        · exact hy z hz1
      · exact insert_row_desc_sorted x ys hys

theorem sort_rows_desc_sorted :
    ∀ l : List (Item × ℕ), List.Pairwise (fun a b : Item × ℕ => b.2 ≤ a.2) (sort_rows_desc l)
  | [] => List.Pairwise.nil
  | x :: xs => insert_row_desc_sorted x (sort_rows_desc xs) (sort_rows_desc_sorted xs)

theorem sort_rows_desc_head (rows : List (Item × ℕ)) (c : Item × ℕ)
    (hc : c ∈ rows) (hmax : ∀ r ∈ rows, r ≠ c → r.2 < c.2) :
    ∃ t, sort_rows_desc rows = c :: t := by
  have hperm := sort_rows_desc_perm rows
  have hsort := sort_rows_desc_sorted rows
  cases hs : sort_rows_desc rows with
  | nil =>
    rw [hs] at hperm
    rw [← hperm.mem_iff] at hc
    cases hc
  | cons h t =>
    rw [hs] at hperm hsort
    have hh : h ∈ rows := hperm.mem_iff.mp (List.mem_cons_self _ _)
    by_cases hhc : h = c
    · exact ⟨t, by rw [hhc]⟩
    · exfalso
      have hlt : h.2 < c.2 := hmax h hh hhc
      have hct : c ∈ h :: t := hperm.mem_iff.mpr hc
      rcases List.mem_cons.mp hct with h1 | h1
      · exact hhc h1.symm
      · have := (List.pairwise_cons.mp hsort).1 c h1
        omega

theorem elim_rank_rows_keys (ps : List (Item × PRec)) :
    (elim_rank_rows ps).map Prod.fst = ps.map Prod.fst := by
  rw [elim_rank_rows, List.map_map]
  rfl

theorem row_functional {β : Type} (rows : List (Item × β))
    (hnd : (rows.map Prod.fst).Nodup) :
    ∀ {r1 r2 : Item × β}, r1 ∈ rows → r2 ∈ rows → r1.1 = r2.1 → r1 = r2 := by
  intro r1 r2 h1 h2 hk
  have hs := assoc_functional rows hnd
    (show (r1.1, r1.2) ∈ rows from h1) (show (r1.1, r2.2) ∈ rows from hk ▸ h2)
  exact Prod.ext hk (hs)

/-- **C8** (elimination final ranking): when the bracket completes with
exactly one winner `c`, the displayed view is the champion view whose
ranking table assigns `c` the rank order `round + 1` (strictly above every
real elimination round), sorts descending so `c` is row 1, and carries
dense rank numbers `1..n` with exactly one row per item — no duplicates,
no omissions. -/
theorem elim_final_ranking (shuffle : List Item → List Item) (st : ElimState) (c : Item)
    (hkeys : (st.players.map Prod.fst).Nodup)
    (hdone : st.matchups.length ≤ st.current_match_index)
    (hwin : winners_of st = [c])
    (helim : ∀ e ∈ st.players, e.1 ≠ c →
      ∃ r, e.2.eliminated_in_round = some r ∧ r ≤ st.round) :
    ∃ rk, (elim_display shuffle st).2 = EView.champView c rk ∧
      rk.length = st.players.length ∧
      rk.map Prod.fst = (List.range st.players.length).map (· + 1) ∧
      rk.head? = some (1, c) ∧
      (rk.map Prod.snd).Perm (st.players.map Prod.fst) := by
  have hview : (elim_display shuffle st).2 =
      EView.champView c (final_ranking (set_elim_round c (st.round + 1) st.players)) := by
    simp [elim_display, hdone, hwin]
  set players2 := set_elim_round c (st.round + 1) st.players with hp2
  have hk2 : players2.map Prod.fst = st.players.map Prod.fst :=
    keys_set_elim_round c (st.round + 1) st.players
  have hrowkeys : (elim_rank_rows players2).map Prod.fst = st.players.map Prod.fst := by
    rw [elim_rank_rows_keys, hk2]
  have hrownd : ((elim_rank_rows players2).map Prod.fst).Nodup := by
    rw [hrowkeys]; exact hkeys
  have hc_key : c ∈ st.players.map Prod.fst := by
    apply winners_of_sub_keys
    rw [hwin]
    exact List.mem_cons_self _ _
  have hfc : ∃ rc, find_rec c st.players = some rc := by
    cases hf : find_rec c st.players with
    | none => exact absurd hc_key (find_rec_eq_none.mp hf)
    | some rc => exact ⟨rc, rfl⟩
  obtain ⟨rc, hrc⟩ := hfc
  have hcrow : (c, st.round + 1) ∈ elim_rank_rows players2 := by
    have hfind2 : find_rec c players2 =
        some { rc with eliminated_in_round := some (st.round + 1) } := by
      rw [hp2, find_rec_set_elim_round, if_pos rfl, hrc]
      rfl
    have hentry := find_rec_mem hfind2
    have := List.mem_map_of_mem
      (fun e : Item × PRec => (e.1, e.2.eliminated_in_round.getD 0)) hentry
    simpa [elim_rank_rows] using this
  have hmax : ∀ r ∈ elim_rank_rows players2, r ≠ (c, st.round + 1) →
      r.2 < st.round + 1 := by
    intro r hr hne
    rw [elim_rank_rows] at hr
    rcases List.mem_map.mp hr with ⟨e', he', rfl⟩
    rw [hp2, set_elim_round] at he'
    rcases List.mem_map.mp he' with ⟨e, he, hupd⟩
    by_cases hec : e.1 = c
    · rw [if_pos hec] at hupd
      exfalso
      apply hne
      rw [← hupd, hec]
      rfl
    · rw [if_neg hec] at hupd
      rw [← hupd]
      have hec' : e.1 ≠ c := hec
      obtain ⟨rr, hrr, hle⟩ := helim e he hec'
      rw [hrr]
      simp only [Option.getD_some]
      omega
  obtain ⟨t, hsorted⟩ :=
    sort_rows_desc_head (elim_rank_rows players2) (c, st.round + 1) hcrow hmax
  have hNrows : (elim_rank_rows players2).length = st.players.length := by
    rw [elim_rank_rows, List.length_map, hp2, set_elim_round, List.length_map]
  have hN : (sort_rows_desc (elim_rank_rows players2)).length = st.players.length := by
    rw [(sort_rows_desc_perm _).length_eq, hNrows]
  have hrk : final_ranking players2 =
      ((List.range st.players.length).map (· + 1)).zip
        ((sort_rows_desc (elim_rank_rows players2)).map Prod.fst) := by
    rw [final_ranking]
    rw [hN]
  have hlen1 : ((List.range st.players.length).map (· + 1)).length = st.players.length := by
    rw [List.length_map, List.length_range]
  have hlen2 : ((sort_rows_desc (elim_rank_rows players2)).map Prod.fst).length
      = st.players.length := by
    rw [List.length_map, hN]
  refine ⟨final_ranking players2, hview, ?_, ?_, ?_, ?_⟩
  · rw [hrk, List.length_zip, hlen1, hlen2, Nat.min_self]
  · rw [hrk, List.map_fst_zip _ _ (by rw [hlen1, hlen2])]
  · rw [hrk]
    have hNt : st.players.length = t.length + 1 := by
      rw [← hN, hsorted, List.length_cons]
    rw [hNt, List.range_succ_eq_map, hsorted]
    rw [List.map_cons, List.map_cons, List.zip_cons_cons]
    rfl
  · rw [hrk, List.map_snd_zip _ _ (by rw [hlen1, hlen2])]
    have hpermrows : ((sort_rows_desc (elim_rank_rows players2)).map Prod.fst).Perm
        ((elim_rank_rows players2).map Prod.fst) :=
      (sort_rows_desc_perm _).map Prod.fst
    rw [hrowkeys] at hpermrows
    exact hpermrows

/-- Witness for `elim_final_ranking`: a finished two-player bracket, champion
`"a"`, loser `"b"` eliminated in round 1. -/
theorem elim_final_ranking_witness :
    winners_of ⟨[("a", ⟨Status.winner, none⟩), ("b", ⟨Status.eliminated, some 1⟩)],
        [("a", "b")], 1, 1⟩ = ["a"] ∧
      ∃ rk, (elim_display id ⟨[("a", ⟨Status.winner, none⟩), ("b", ⟨Status.eliminated, some 1⟩)],
          [("a", "b")], 1, 1⟩).2 = EView.champView "a" rk ∧
        rk.length = 2 ∧
        rk.map Prod.fst = (List.range 2).map (· + 1) ∧
        rk.head? = some (1, "a") ∧
        (rk.map Prod.snd).Perm ["a", "b"] := by
  refine ⟨by decide, ?_⟩
  have h := elim_final_ranking id
    ⟨[("a", ⟨Status.winner, none⟩), ("b", ⟨Status.eliminated, some 1⟩)], [("a", "b")], 1, 1⟩
    "a" (by decide) (by decide) (by decide)
    (fun e he hne => by
      rcases List.mem_cons.mp he with h1 | h1
      · exact absurd (by rw [h1]) hne
      · rcases List.mem_cons.mp h1 with h2 | h2
        · exact ⟨1, by rw [h2], by decide⟩
        · cases h2)
  exact h
